import Mathlib

/-!
Shallow embedding of the ray-tracer core (vector.rs, ray.rs, bounds.rs,
world.rs, cam.rs, main.rs).  The f64 values of the source are modelled as
exact reals.  The t-interval bounds that flow through every hit test are
modelled by the extended type FP, because the integrator calls the world
hit with an infinite upper bound and the AABB slab test relies on the
IEEE comparison behaviour of infinities and NaN.  The pseudo-random
generator is external to the core (spec section 1 and 6); every random
quantity a scatter or camera call consumes is passed in explicitly as an
oracle draw.
-/

noncomputable section

/-- Embedding of Vec3 (vector.rs): three real components. -/
structure Vec3 where
  x : ℝ
  y : ℝ
  z : ℝ

/-- Source type alias: points are Vec3. -/
abbrev Point3 := Vec3

/-- Source type alias: colors are Vec3. -/
abbrev Color := Vec3

/-- Embedding of Vec3::zero. -/
def Vec3.zero : Vec3 := ⟨0, 0, 0⟩

instance : Neg Vec3 := ⟨fun v => ⟨-v.x, -v.y, -v.z⟩⟩

instance : Add Vec3 := ⟨fun a b => ⟨a.x + b.x, a.y + b.y, a.z + b.z⟩⟩

instance : Sub Vec3 := ⟨fun a b => ⟨a.x - b.x, a.y - b.y, a.z - b.z⟩⟩

instance : HMul Vec3 ℝ Vec3 := ⟨fun v k => ⟨v.x * k, v.y * k, v.z * k⟩⟩

instance : Mul Vec3 := ⟨fun a b => ⟨a.x * b.x, a.y * b.y, a.z * b.z⟩⟩

instance : HDiv Vec3 ℝ Vec3 := ⟨fun v k => ⟨v.x / k, v.y / k, v.z / k⟩⟩

@[simp] theorem Vec3.neg_x (v : Vec3) : (-v).x = -v.x := rfl

@[simp] theorem Vec3.neg_y (v : Vec3) : (-v).y = -v.y := rfl

@[simp] theorem Vec3.neg_z (v : Vec3) : (-v).z = -v.z := rfl

@[simp] theorem Vec3.add_x (a b : Vec3) : (a + b).x = a.x + b.x := rfl

@[simp] theorem Vec3.add_y (a b : Vec3) : (a + b).y = a.y + b.y := rfl

@[simp] theorem Vec3.add_z (a b : Vec3) : (a + b).z = a.z + b.z := rfl

@[simp] theorem Vec3.sub_x (a b : Vec3) : (a - b).x = a.x - b.x := rfl

@[simp] theorem Vec3.sub_y (a b : Vec3) : (a - b).y = a.y - b.y := rfl

@[simp] theorem Vec3.sub_z (a b : Vec3) : (a - b).z = a.z - b.z := rfl

@[simp] theorem Vec3.smul_x (v : Vec3) (k : ℝ) : (v * k).x = v.x * k := rfl

@[simp] theorem Vec3.smul_y (v : Vec3) (k : ℝ) : (v * k).y = v.y * k := rfl

@[simp] theorem Vec3.smul_z (v : Vec3) (k : ℝ) : (v * k).z = v.z * k := rfl

@[simp] theorem Vec3.mul_x (a b : Vec3) : (a * b).x = a.x * b.x := rfl

@[simp] theorem Vec3.mul_y (a b : Vec3) : (a * b).y = a.y * b.y := rfl

@[simp] theorem Vec3.mul_z (a b : Vec3) : (a * b).z = a.z * b.z := rfl

@[simp] theorem Vec3.div_x (v : Vec3) (k : ℝ) : (v / k).x = v.x / k := rfl

@[simp] theorem Vec3.div_y (v : Vec3) (k : ℝ) : (v / k).y = v.y / k := rfl

@[simp] theorem Vec3.div_z (v : Vec3) (k : ℝ) : (v / k).z = v.z / k := rfl

/-- Embedding of Vec3::length_squared. -/
def Vec3.length_squared (v : Vec3) : ℝ := v.x * v.x + v.y * v.y + v.z * v.z

/-- Embedding of Vec3::length. -/
def Vec3.length (v : Vec3) : ℝ := Real.sqrt v.length_squared

/-- Embedding of Vec3::dot_product. -/
def Vec3.dot_product (a b : Vec3) : ℝ := a.x * b.x + a.y * b.y + a.z * b.z

/-- Embedding of Vec3::cross_product. -/
def Vec3.cross_product (a b : Vec3) : Vec3 :=
  ⟨a.y * b.z - a.z * b.y, a.z * b.x - a.x * b.z, a.x * b.y - a.y * b.x⟩

/-- Embedding of Vec3::unit_vector. -/
def Vec3.unit_vector (v : Vec3) : Vec3 := v / v.length

/-- Embedding of Vec3::reflect. -/
def Vec3.reflect (v normal : Vec3) : Vec3 :=
  v - normal * (v.dot_product normal) * (2 : ℝ)

/-- Embedding of Vec3::refract. -/
def Vec3.refract (v normal : Vec3) (etai_over_etat : ℝ) : Vec3 :=
  let cos_theta := min ((-v).dot_product normal) 1
  let r_perp := (v + normal * cos_theta) * etai_over_etat
  let r_parallel := normal * (-Real.sqrt |1 - r_perp.length_squared|)
  r_perp + r_parallel

/-- Embedding of Vec3::near_zero. -/
def Vec3.near_zero (v : Vec3) (epsilon : ℝ) : Bool :=
  decide (|v.x| < epsilon) && decide (|v.y| < epsilon) && decide (|v.z| < epsilon)

/-- Embedding of color::BLACK (color.rs). -/
def BLACK : Color := Vec3.zero

/-- Embedding of color::WHITE (color.rs). -/
def WHITE : Color := ⟨1, 1, 1⟩

/-- Embedding of Ray (ray.rs): origin, direction and a time for motion blur. -/
structure Ray where
  origin : Point3
  direction : Vec3
  time : ℝ

/-- Embedding of Ray::at. -/
def Ray.at (r : Ray) (t : ℝ) : Point3 := r.origin + r.direction * t

/-- Embedding of the Material enum (ray.rs); the source spells the
dielectric variant Dialectric. -/
inductive Material where
  | dialectric (index_of_refraction : ℝ)
  | lambertian (albedo : Color)
  | metal (albedo : Color) (fuzz : ℝ)

/-- Embedding of HitRecord (ray.rs).  The material reference of the source
becomes a material value. -/
structure HitRecord where
  p : Point3
  t : ℝ
  normal : Vec3
  front_face : Bool
  material : Material

/-- Embedding of HitRecord::new: computes the hit point, decides the
front-face flag from the incident direction against the geometric outward
normal, and stores the orientation-corrected normal. -/
def HitRecord.new (t : ℝ) (r : Ray) (outward_normal : Vec3) (material : Material) :
    HitRecord :=
  let p := r.at t
  let front_face := decide (r.direction.dot_product outward_normal < 0)
  let normal := if front_face then outward_normal else -outward_normal
  ⟨p, t, normal, front_face, material⟩

/-- Embedding of ScatterResult (ray.rs). -/
structure ScatterResult where
  scattered : Ray
  attenuation : Color

/-- Oracle draws consumed by one Material::scatter call.  The source's rng
is external to the core (spec sections 1 and 6): inSphere stands for the
accepted sample of random_in_unit_sphere (vector.rs rejection loop) and
uni for one uniform real from rng.gen. -/
structure Draws where
  inSphere : Vec3
  uni : ℝ

/-- Embedding of the free function reflectance (ray.rs): Schlick's
approximation. -/
def reflectance (cosine ref_idx : ℝ) : ℝ :=
  let r0 := (1 - ref_idx) / (1 + ref_idx)
  let r0sq := r0 * r0
  r0sq + (1 - r0sq) * (1 - cosine) ^ 5

/-- Embedding of random_unit_vector (vector.rs): the accepted in-sphere
sample, normalized. -/
def random_unit_vector (d : Draws) : Vec3 := d.inSphere.unit_vector

/-- Embedding of Material::scatter (ray.rs), with the rng replaced by the
oracle draws of the call. -/
def Material.scatter (m : Material) (d : Draws) (r : Ray) (hit : HitRecord) :
    Option ScatterResult :=
  match m with
  | .dialectric index_of_refraction =>
      let refraction_ratio :=
        if hit.front_face then index_of_refraction⁻¹ else index_of_refraction
      let unit_direction := r.direction.unit_vector
      let cos_theta := min ((-unit_direction).dot_product hit.normal) 1
      let sin_theta := Real.sqrt (1 - cos_theta * cos_theta)
      let cannot_refract := refraction_ratio * sin_theta > 1
      let refl := reflectance cos_theta refraction_ratio
      let direction :=
        if cannot_refract ∨ refl > d.uni then unit_direction.reflect hit.normal
        else unit_direction.refract hit.normal refraction_ratio
      some ⟨⟨hit.p, direction, r.time⟩, WHITE⟩
  | .lambertian albedo =>
      let scatter_direction := hit.normal + random_unit_vector d
      let scatter_direction :=
        if scatter_direction.near_zero (1e-8) then hit.normal else scatter_direction
      some ⟨⟨hit.p, scatter_direction, r.time⟩, albedo⟩
  | .metal albedo fuzz =>
      let reflected := r.direction.unit_vector.reflect hit.normal
      let fuzz_offset := d.inSphere * fuzz
      let scattered : Ray := ⟨hit.p, reflected + fuzz_offset, r.time⟩
      if scattered.direction.dot_product hit.normal ≤ 0 then none
      else some ⟨scattered, albedo⟩

/-- Extended f64 value as it appears in the hit-interval bounds: a finite
real, one of the two infinities, or NaN.  The source passes
f64::INFINITY into World::hit and divides by zero direction components in
AABB::hit, so the bounds cannot be modelled by plain reals. -/
inductive FP where
  | fin (x : ℝ)
  | inf
  | ninf
  | nan

/-- IEEE strict less-than on extended values; any comparison with NaN is
false. -/
def FP.lt : FP → FP → Bool
  | .nan, _ => false
  | _, .nan => false
  | .ninf, .ninf => false
  | .ninf, _ => true
  | .fin _, .ninf => false
  | .fin x, .fin y => decide (x < y)
  | .fin _, .inf => true
  | .inf, _ => false

/-- IEEE less-or-equal on extended values; any comparison with NaN is
false. -/
def FP.le : FP → FP → Bool
  | .nan, _ => false
  | _, .nan => false
  | .ninf, _ => true
  | .fin _, .ninf => false
  | .fin x, .fin y => decide (x ≤ y)
  | .fin _, .inf => true
  | .inf, .inf => true
  | .inf, _ => false

/-- Embedding of f64::recip on a finite value: the reciprocal, with the
IEEE rule that dividing by (positive) zero yields positive infinity. -/
def FP.recip (x : ℝ) : FP := if x = 0 then .inf else .fin x⁻¹

/-- Multiplication of a finite real by an extended value, following IEEE:
a finite times an infinity keeps the infinity with the sign rule, and zero
times an infinity is NaN. -/
def FP.mulF (y : ℝ) : FP → FP
  | .fin x => .fin (y * x)
  | .inf => if 0 < y then .inf else if y < 0 then .ninf else .nan
  | .ninf => if 0 < y then .ninf else if y < 0 then .inf else .nan
  | .nan => .nan

/-- Embedding of AABB (bounds.rs): a min and a max corner. -/
structure AABB where
  min : Point3
  max : Point3

/-- One axis of AABB::hit (bounds.rs): the three axis blocks of the source
are textually identical up to the coordinate, and each one computes the
slab parameters from the reciprocal direction, swaps them when the
reciprocal is negative, and narrows the running interval. -/
def slabAxis (minA maxA oA dA : ℝ) (t_min t_max : FP) : FP × FP :=
  let inv_d := FP.recip dA
  let t0 := FP.mulF (minA - oA) inv_d
  let t1 := FP.mulF (maxA - oA) inv_d
  let q := if FP.lt inv_d (FP.fin 0) then (t1, t0) else (t0, t1)
  let lo := if FP.lt t_min q.1 then q.1 else t_min
  let hi := if FP.lt q.2 t_max then q.2 else t_max
  (lo, hi)

/-- Embedding of AABB::hit (bounds.rs): the slab test over the three axes
in order, returning false as soon as the interval becomes empty. -/
def AABB.hit (b : AABB) (r : Ray) (t_min t_max : FP) : Bool :=
  let sx := slabAxis b.min.x b.max.x r.origin.x r.direction.x t_min t_max
  if FP.le sx.2 sx.1 then false
  else
    let sy := slabAxis b.min.y b.max.y r.origin.y r.direction.y sx.1 sx.2
    if FP.le sy.2 sy.1 then false
    else
      let sz := slabAxis b.min.z b.max.z r.origin.z r.direction.z sy.1 sy.2
      if FP.le sz.2 sz.1 then false else true

instance : Add AABB :=
  ⟨fun a b =>
    ⟨⟨min a.min.x b.min.x, min a.min.y b.min.y, min a.min.z b.min.z⟩,
     ⟨max a.max.x b.max.x, max a.max.y b.max.y, max a.max.z b.max.z⟩⟩⟩

/-- Embedding of Sphere (world.rs). -/
structure Sphere where
  center : Point3
  radius : ℝ
  material : Material

/-- Embedding of MovingSphere (world.rs). -/
structure MovingSphere where
  time : ℝ × ℝ
  center : Point3 × Point3
  radius : ℝ
  material : Material

/-- Embedding of MovingSphere::center: linear interpolation of the two
centers at the given time over the sphere's own motion interval. -/
def MovingSphere.centerAt (s : MovingSphere) (time : ℝ) : Point3 :=
  let t_delta := time - s.time.1
  let t_range := s.time.2 - s.time.1
  let c_delta := s.center.2 - s.center.1
  s.center.1 + c_delta * (t_delta / t_range)

/-- Shared body of Sphere::hit and MovingSphere::hit (world.rs): the two
source functions are textually identical except that the moving variant
reads its center at the ray's time; the center is therefore a
parameter. -/
def sphereHitCore (center : Point3) (radius : ℝ) (material : Material)
    (r : Ray) (t_min t_max : FP) : Option HitRecord :=
  let oc := r.origin - center
  let a := r.direction.length_squared
  let half_b := oc.dot_product r.direction
  let c := oc.length_squared - radius * radius
  let discriminant := half_b * half_b - a * c
  if discriminant < 0 then none
  else
    let sqrtd := Real.sqrt discriminant
    let root1 := (-half_b - sqrtd) / a
    let root2 := (-half_b + sqrtd) / a
    if FP.le t_min (FP.fin root1) && FP.le (FP.fin root1) t_max then
      some (HitRecord.new root1 r ((r.at root1 - center) / radius) material)
    else if FP.le t_min (FP.fin root2) && FP.le (FP.fin root2) t_max then
      some (HitRecord.new root2 r ((r.at root2 - center) / radius) material)
    else none

/-- Embedding of Sphere::hit (world.rs). -/
def Sphere.hit (s : Sphere) (r : Ray) (t_min t_max : FP) : Option HitRecord :=
  sphereHitCore s.center s.radius s.material r t_min t_max

/-- Embedding of MovingSphere::hit (world.rs). -/
def MovingSphere.hit (s : MovingSphere) (r : Ray) (t_min t_max : FP) :
    Option HitRecord :=
  sphereHitCore (s.centerAt r.time) s.radius s.material r t_min t_max

/-- Embedding of Sphere::bounds (world.rs). -/
def Sphere.bounds (s : Sphere) (_time : ℝ × ℝ) : Option AABB :=
  let octant : Vec3 := ⟨s.radius, s.radius, s.radius⟩
  some ⟨s.center - octant, s.center + octant⟩

/-- Embedding of MovingSphere::bounds (world.rs): union of the two static
boxes at the endpoints of the queried interval. -/
def MovingSphere.bounds (s : MovingSphere) (time : ℝ × ℝ) : Option AABB :=
  let c0 := s.centerAt time.1
  let c1 := s.centerAt time.2
  let octant : Vec3 := ⟨s.radius, s.radius, s.radius⟩
  let a : AABB := ⟨c0 - octant, c0 + octant⟩
  let b : AABB := ⟨c1 - octant, c1 + octant⟩
  some (a + b)

/-- The closed set of hit-testable values a scene is built from: the two
primitives and BVH nodes (bounds.rs), whose children are again
hit-testable.  The dyn Hit trait objects of the source range over exactly
these in this program. -/
inductive Hittable where
  | sphere (s : Sphere)
  | msphere (s : MovingSphere)
  | bvh (left right : Hittable) (bounds : AABB)

/-- Embedding of the hit method: dispatch of the Hit trait, with the BVH
case following BVH::hit (bounds.rs): reject on the cached box, probe the
left child, shrink the upper bound to the left hit's t, probe the right
child, and prefer the right hit. -/
def Hittable.hit : Hittable → Ray → FP → FP → Option HitRecord
  | .sphere s, r, t_min, t_max => s.hit r t_min t_max
  | .msphere s, r, t_min, t_max => s.hit r t_min t_max
  | .bvh left right bounds, r, t_min, t_max =>
      if bounds.hit r t_min t_max = false then none
      else
        let hit_left := left.hit r t_min t_max
        let t_max2 := match hit_left with
          | some h => FP.fin h.t
          | none => t_max
        let hit_right := right.hit r t_min t_max2
        hit_right.or hit_left

/-- Embedding of the bounds method: Sphere::bounds, MovingSphere::bounds,
and BVH::bounds, which always returns None in the source. -/
def Hittable.bounds : Hittable → ℝ × ℝ → Option AABB
  | .sphere s, time => s.bounds time
  | .msphere s, time => s.bounds time
  | .bvh _ _ _, _ => none

/-- Embedding of World (world.rs): the ordered list of scene objects. -/
structure World where
  objects : List Hittable

/-- Loop body of World::hit (world.rs): walk the objects keeping the
closest hit so far and shrinking the upper bound to its t. -/
def hitLoop (r : Ray) (t_min : FP) :
    List Hittable → FP → Option HitRecord → Option HitRecord
  | [], _, closest => closest
  | o :: os, t_max, closest =>
      match o.hit r t_min t_max with
      | some h => hitLoop r t_min os (FP.fin h.t) (some h)
      | none => hitLoop r t_min os t_max closest

/-- Embedding of World::hit (world.rs): linear scan over the objects. -/
def World.hit (w : World) (r : Ray) (t_min t_max : FP) : Option HitRecord :=
  hitLoop r t_min w.objects t_max none

/-- Embedding of World::bounds (world.rs): keep the objects that report a
box and fold them with the AABB union; Rust's reduce returns None on an
empty iterator. -/
def World.bounds (w : World) (time : ℝ × ℝ) : Option AABB :=
  match w.objects.filterMap (fun obj => obj.bounds time) with
  | [] => none
  | b :: bs => some (bs.foldl (· + ·) b)

/-- Embedding of Camera (cam.rs): the derived viewing basis. -/
structure Camera where
  origin : Point3
  lower_left_corner : Point3
  horizontal : Vec3
  vertical : Vec3
  u : Vec3
  v : Vec3
  w : Vec3
  lens_radius : ℝ
  time : ℝ × ℝ

/-- Embedding of Camera::new (cam.rs). -/
def Camera.new (look_from look_at : Point3) (view_up : Vec3)
    (vertical_fov aspect_ratio aperture focus_distance : ℝ) (time : ℝ × ℝ) :
    Camera :=
  let theta := vertical_fov * (Real.pi / 180)
  let h := Real.tan (theta / 2)
  let viewport_height := 2 * h
  let viewport_width := aspect_ratio * viewport_height
  let w := (look_from - look_at).unit_vector
  let u := (view_up.cross_product w).unit_vector
  let v := w.cross_product u
  let origin := look_from
  let horizontal := u * viewport_width * focus_distance
  let vertical := v * viewport_height * focus_distance
  let lower_left_corner :=
    origin - horizontal / (2 : ℝ) - vertical / (2 : ℝ) - w * focus_distance
  ⟨origin, lower_left_corner, horizontal, vertical, u, v, w, aperture / 2, time⟩

/-- Modelled from the spec: the external uniform-random source provides
uniform reals in an arbitrary range (spec section 6); the rand crate's
gen_range over lo..hi is the affine image of a unit draw. -/
def gen_range (lo hi u : ℝ) : ℝ := lo + u * (hi - lo)

/-- Embedding of Camera::get_ray (cam.rs), with the unit-disk sample and
the unit draw for the shutter time passed in as oracle draws (the source's
random_in_unit_disk and rng live outside the core). -/
def Camera.get_ray (c : Camera) (inDisk : Vec3) (u01 : ℝ) (s t : ℝ) : Ray :=
  let rd := inDisk * c.lens_radius
  let offset := c.u * rd.x + c.v * rd.y
  let origin := c.origin + offset
  let direction :=
    c.lower_left_corner + c.horizontal * s + c.vertical * t - c.origin - offset
  let time := gen_range c.time.1 c.time.2 u01
  ⟨origin, direction, time⟩

/-- Embedding of ray_color (main.rs): the recursive estimator.  The rng is
the tape of oracle draws, one entry per bounce; the recursive call shifts
the tape. -/
def ray_color (tape : ℕ → Draws) (r : Ray) (world : World) (depth : ℤ) : Color :=
  if _hdep : depth ≤ 0 then BLACK
  else
    match world.hit r (FP.fin 0.001) FP.inf with
    | some hit =>
        match hit.material.scatter (tape 0) r hit with
        | some sr =>
            sr.attenuation * ray_color (fun n => tape (n + 1)) sr.scattered world (depth - 1)
        | none => BLACK
    | none =>
        let unit_direction := r.direction.unit_vector
        let t := 0.5 * (unit_direction.y + 1)
        WHITE * (1 - t) + (⟨0.5, 0.7, 1⟩ : Color) * t
termination_by depth.toNat
decreasing_by
  omega

/-! Helper lemmas. -/

@[ext] theorem Vec3.ext_components (a b : Vec3) (hx : a.x = b.x) (hy : a.y = b.y)
    (hz : a.z = b.z) : a = b := by
  cases a; cases b; simp_all

@[simp] theorem Vec3.mk_add_mk (a b c d e f : ℝ) :
    (Vec3.mk a b c) + (Vec3.mk d e f) = ⟨a + d, b + e, c + f⟩ := rfl

@[simp] theorem Vec3.mk_sub_mk (a b c d e f : ℝ) :
    (Vec3.mk a b c) - (Vec3.mk d e f) = ⟨a - d, b - e, c - f⟩ := rfl

@[simp] theorem Vec3.neg_mk (a b c : ℝ) :
    -(Vec3.mk a b c) = ⟨-a, -b, -c⟩ := rfl

@[simp] theorem Vec3.mk_smul (a b c k : ℝ) :
    (Vec3.mk a b c) * k = ⟨a * k, b * k, c * k⟩ := rfl

@[simp] theorem Vec3.mk_mul_mk (a b c d e f : ℝ) :
    (Vec3.mk a b c) * (Vec3.mk d e f) = ⟨a * d, b * e, c * f⟩ := rfl

@[simp] theorem Vec3.mk_div (a b c k : ℝ) :
    (Vec3.mk a b c) / k = ⟨a / k, b / k, c / k⟩ := rfl

@[simp] theorem FP.le_fin_fin (x y : ℝ) :
    FP.le (.fin x) (.fin y) = decide (x ≤ y) := rfl

@[simp] theorem FP.le_fin_inf (x : ℝ) : FP.le (.fin x) .inf = true := rfl

@[simp] theorem FP.le_fin_ninf (x : ℝ) : FP.le (.fin x) .ninf = false := rfl

@[simp] theorem FP.le_fin_nan (x : ℝ) : FP.le (.fin x) .nan = false := rfl

@[simp] theorem FP.le_nan (a : FP) : FP.le .nan a = false := by cases a <;> rfl

@[simp] theorem FP.le_ninf_fin (x : ℝ) : FP.le .ninf (.fin x) = true := rfl

@[simp] theorem FP.le_ninf_inf : FP.le .ninf .inf = true := rfl

@[simp] theorem FP.le_ninf_ninf : FP.le .ninf .ninf = true := rfl

@[simp] theorem FP.le_ninf_nan : FP.le .ninf .nan = false := rfl

@[simp] theorem FP.le_inf_inf : FP.le .inf .inf = true := rfl

@[simp] theorem FP.le_inf_fin (x : ℝ) : FP.le .inf (.fin x) = false := rfl

@[simp] theorem FP.le_inf_ninf : FP.le .inf .ninf = false := rfl

@[simp] theorem FP.le_inf_nan : FP.le .inf .nan = false := rfl

@[simp] theorem FP.lt_fin_fin (x y : ℝ) :
    FP.lt (.fin x) (.fin y) = decide (x < y) := rfl

@[simp] theorem FP.lt_fin_inf (x : ℝ) : FP.lt (.fin x) .inf = true := rfl

@[simp] theorem FP.lt_fin_ninf (x : ℝ) : FP.lt (.fin x) .ninf = false := rfl

@[simp] theorem FP.lt_fin_nan (x : ℝ) : FP.lt (.fin x) .nan = false := rfl

@[simp] theorem FP.lt_nan (a : FP) : FP.lt .nan a = false := by cases a <;> rfl

@[simp] theorem FP.lt_inf (a : FP) : FP.lt .inf a = false := by cases a <;> rfl

@[simp] theorem FP.lt_ninf_fin (x : ℝ) : FP.lt .ninf (.fin x) = true := rfl

@[simp] theorem FP.lt_ninf_inf : FP.lt .ninf .inf = true := rfl

@[simp] theorem FP.lt_ninf_ninf : FP.lt .ninf .ninf = false := rfl

@[simp] theorem FP.lt_ninf_nan : FP.lt .ninf .nan = false := rfl

theorem Vec3.dot_comm (a b : Vec3) : a.dot_product b = b.dot_product a := by
  simp [Vec3.dot_product]; ring

theorem Vec3.neg_dot (a b : Vec3) : (-a).dot_product b = -(a.dot_product b) := by
  simp [Vec3.dot_product]; ring

theorem Vec3.dot_self (a : Vec3) : a.dot_product a = a.length_squared := by
  simp [Vec3.dot_product, Vec3.length_squared]

theorem AABB.add_def (a b : AABB) :
    a + b =
      ⟨⟨Min.min a.min.x b.min.x, Min.min a.min.y b.min.y, Min.min a.min.z b.min.z⟩,
       ⟨Max.max a.max.x b.max.x, Max.max a.max.y b.max.y, Max.max a.max.z b.max.z⟩⟩ := rfl

@[ext] theorem AABB.ext_corners (a b : AABB) (hmin : a.min = b.min)
    (hmax : a.max = b.max) : a = b := by
  cases a; cases b; simp_all

/-- C8: the AABB union operator, componentwise min of mins and max of
maxes, is associative and commutative. -/
theorem aabb_union_assoc_comm (A B C : AABB) :
    (A + B) + C = A + (B + C) ∧ A + B = B + A := by
  constructor <;>
    (ext <;>
      simp [AABB.add_def, min_assoc, max_assoc, min_comm, max_comm,
        min_left_comm, max_left_comm])

/-- C4 (amended): for every constructed hit record, front_face records
whether the incident direction strictly opposed the geometric outward
normal; when front_face is true the reported normal satisfies
normal dot direction < 0, when front_face is false the outward normal
satisfies outward dot direction >= 0 and the reported normal satisfies
normal dot direction <= 0; the reported normal is the outward normal or
its negation accordingly, so normal dot direction <= 0 always holds. -/
theorem hit_record_orientation (t : ℝ) (r : Ray) (outward : Vec3) (mat : Material) :
    ((HitRecord.new t r outward mat).front_face = true ↔
        r.direction.dot_product outward < 0)
    ∧ ((HitRecord.new t r outward mat).front_face = true →
        (HitRecord.new t r outward mat).normal.dot_product r.direction < 0)
    ∧ ((HitRecord.new t r outward mat).front_face = false →
        0 ≤ r.direction.dot_product outward ∧
          (HitRecord.new t r outward mat).normal.dot_product r.direction ≤ 0)
    ∧ (HitRecord.new t r outward mat).normal =
        (if r.direction.dot_product outward < 0 then outward else -outward)
    ∧ (HitRecord.new t r outward mat).normal.dot_product r.direction ≤ 0 := by
  by_cases h : r.direction.dot_product outward < 0
  · refine ⟨by simp [HitRecord.new, h], fun _ => ?_, fun hf => ?_, ?_, ?_⟩
    · simp [HitRecord.new, h, Vec3.dot_comm outward r.direction]
    · simp [HitRecord.new, h] at hf
    · simp [HitRecord.new, h]
    · simp [HitRecord.new, h, Vec3.dot_comm outward r.direction] <;> linarith
  · refine ⟨by simp [HitRecord.new, h], fun hf => ?_, fun _ => ?_, ?_, ?_⟩
    · simp [HitRecord.new, h] at hf
    · constructor
      · linarith [not_lt.mp h]
      · simp [HitRecord.new, h, Vec3.neg_dot, Vec3.dot_comm outward r.direction] <;>
          linarith [not_lt.mp h]
    · simp [HitRecord.new, h]
    · simp [HitRecord.new, h, Vec3.neg_dot, Vec3.dot_comm outward r.direction] <;>
        linarith [not_lt.mp h]

/-- Witness for C4's amended theorem at a concrete front hit: direction
(0,0,-1) against outward normal (0,0,1). -/
theorem hit_record_orientation_witness :
    (HitRecord.new 1 ⟨⟨0,0,0⟩, ⟨0,0,-1⟩, 0⟩ ⟨0,0,1⟩ (.lambertian ⟨1,1,1⟩)).front_face = true ∧
    (HitRecord.new 1 ⟨⟨0,0,0⟩, ⟨0,0,-1⟩, 0⟩ ⟨0,0,1⟩ (.lambertian ⟨1,1,1⟩)).normal.dot_product
      (Ray.mk ⟨0,0,0⟩ ⟨0,0,-1⟩ 0).direction < 0 := by
  have h := hit_record_orientation 1 ⟨⟨0,0,0⟩, ⟨0,0,-1⟩, 0⟩ ⟨0,0,1⟩ (.lambertian ⟨1,1,1⟩)
  have hff : (HitRecord.new 1 ⟨⟨0,0,0⟩, ⟨0,0,-1⟩, 0⟩ ⟨0,0,1⟩
      (.lambertian ⟨1,1,1⟩)).front_face = true := by
    refine h.1.mpr ?_
    norm_num [Vec3.dot_product]
  exact ⟨hff, h.2.1 hff⟩

/-- The tangent material used by the C4 counterexample. -/
def tangentMat : Material := .lambertian ⟨0.5, 0.5, 0.5⟩

/-- The tangent sphere of the C4 counterexample: unit sphere at the
origin. -/
def tangentSphere : Sphere := ⟨⟨0, 0, 0⟩, 1, tangentMat⟩

/-- A ray grazing tangentSphere: origin (1,0,5), direction (0,0,-1). -/
def tangentRay : Ray := ⟨⟨1, 0, 5⟩, ⟨0, 0, -1⟩, 0⟩

/-- The hit record the source produces for the tangent ray: hit point
(1,0,0) at t = 5, back face, corrected normal (-1,0,0). -/
def tangentRec : HitRecord := ⟨⟨1, 0, 0⟩, 5, ⟨-1, 0, 0⟩, false, tangentMat⟩

/-- C4 counterexample: a successful intersection (the tangent hit) whose
record has front_face = false while neither the reported normal nor the
geometric outward normal has a strictly positive dot product with the
incident direction, refuting the claim's strict inequality for the
back-face case. -/
theorem hit_record_front_face_cex :
    Sphere.hit tangentSphere tangentRay (FP.fin 0.001) FP.inf = some tangentRec
    ∧ tangentRec.front_face = false
    ∧ ¬ (tangentRec.normal.dot_product tangentRay.direction > 0)
    ∧ ¬ ((-tangentRec.normal).dot_product tangentRay.direction > 0) := by
  refine ⟨?_, rfl, by norm_num [tangentRec, tangentRay, Vec3.dot_product], by
    norm_num [tangentRec, tangentRay, Vec3.dot_product]⟩
  norm_num [Sphere.hit, sphereHitCore, tangentSphere, tangentRay, tangentMat,
    tangentRec, Vec3.length_squared, Vec3.dot_product, Ray.at, HitRecord.new,
    Real.sqrt_zero]

/-- C5: a Dielectric always scatters with white attenuation; the
refraction ratio inverts the index exactly when entering (front face); the
direction reflects the normalized incident direction about the normal when
total internal reflection applies or the uniform draw falls below the
Schlick reflectance, and refracts by Snell's law otherwise; the scattered
ray starts at the hit point and keeps the incident ray's time. -/
theorem dielectric_scatter_spec (idx : ℝ) (d : Draws) (r : Ray) (hit : HitRecord)
    (refraction_ratio : ℝ) (ud : Vec3) (cos_theta sin_theta r0 schlick : ℝ)
    (hratio : refraction_ratio = if hit.front_face then idx⁻¹ else idx)
    (hud : ud = r.direction.unit_vector)
    (hcos : cos_theta = min ((-ud).dot_product hit.normal) 1)
    (hsin : sin_theta = Real.sqrt (1 - cos_theta * cos_theta))
    (hr0 : r0 = ((1 - refraction_ratio) / (1 + refraction_ratio)) ^ 2)
    (hsch : schlick = r0 + (1 - r0) * (1 - cos_theta) ^ 5) :
    Material.scatter (.dialectric idx) d r hit =
      some ⟨⟨hit.p,
        if refraction_ratio * sin_theta > 1 ∨ d.uni < schlick
        then ud - hit.normal * (ud.dot_product hit.normal) * (2 : ℝ)
        else ud.refract hit.normal refraction_ratio,
        r.time⟩, ⟨1, 1, 1⟩⟩ := by
  subst hsch hr0 hsin hcos hud hratio
  simp only [Material.scatter, reflectance, Vec3.reflect, WHITE, pow_two]

/-- Witness for C5 at a concrete dielectric interaction. -/
theorem dielectric_scatter_spec_witness :
    Material.scatter (.dialectric 2) ⟨⟨0, 0, 0⟩, 0⟩ ⟨⟨0, 0, 0⟩, ⟨0, 0, -1⟩, 0⟩
        ⟨⟨0, 0, 0⟩, 0, ⟨0, 0, 1⟩, true, .dialectric 2⟩ ≠ none := by
  rw [dielectric_scatter_spec 2 ⟨⟨0, 0, 0⟩, 0⟩ ⟨⟨0, 0, 0⟩, ⟨0, 0, -1⟩, 0⟩
    ⟨⟨0, 0, 0⟩, 0, ⟨0, 0, 1⟩, true, .dialectric 2⟩ _ _ _ _ _ _ rfl rfl rfl rfl rfl rfl]
  simp

/-- The hit record used by the C6 normal-incidence witness. -/
def metalHit : HitRecord := ⟨⟨0, 0, 0⟩, 1, ⟨0, 0, 1⟩, true, .metal ⟨0.7, 0.6, 0.5⟩ 0⟩

/-- C6: Metal scatters the reflection of the normalized incident direction
plus fuzz times the in-sphere draw, with attenuation the albedo, exactly
when that direction still points away from the surface, and absorbs
otherwise; the reflect operator is d - 2(d dot n)n; with fuzz 0 at normal
incidence against a unit normal the scattered direction is the negated
normalized incident direction. -/
theorem metal_scatter_spec (albedo : Color) (fuzz : ℝ) (d : Draws) (r : Ray)
    (hit : HitRecord) :
    (Material.scatter (.metal albedo fuzz) d r hit =
        if 0 < (r.direction.unit_vector.reflect hit.normal +
            d.inSphere * fuzz).dot_product hit.normal
        then some ⟨⟨hit.p, r.direction.unit_vector.reflect hit.normal +
            d.inSphere * fuzz, r.time⟩, albedo⟩
        else none)
    ∧ (∀ v n : Vec3, v.reflect n = v - n * (v.dot_product n) * (2 : ℝ))
    ∧ (fuzz = 0 → r.direction.unit_vector = -hit.normal → hit.normal.length = 1 →
        r.direction.unit_vector.reflect hit.normal + d.inSphere * fuzz =
          -(r.direction.unit_vector)) := by
  refine ⟨?_, fun v n => rfl, fun hf hud hn => ?_⟩
  · by_cases h : (r.direction.unit_vector.reflect hit.normal +
        d.inSphere * fuzz).dot_product hit.normal ≤ 0
    · simp [Material.scatter, h, not_lt.mpr h]
    · simp [Material.scatter, h, not_le.mp h]
  · have hls : hit.normal.length_squared = 1 := by
      rw [Vec3.length] at hn
      exact Real.sqrt_eq_one.mp hn
    rw [hf, hud]
    ext <;>
      simp [Vec3.reflect, Vec3.neg_dot, Vec3.dot_self, hls] <;> ring

/-- Witness for C6's normal-incidence clause: direction (0,0,-2) against
unit normal (0,0,1) with fuzz 0 reflects to the negated normalized
incident direction. -/
theorem metal_scatter_spec_witness :
    (⟨⟨0, 0, 0⟩, ⟨0, 0, -2⟩, 0⟩ : Ray).direction.unit_vector.reflect metalHit.normal +
      (⟨⟨0, 0, 0⟩, 0⟩ : Draws).inSphere * (0 : ℝ) =
      -((⟨⟨0, 0, 0⟩, ⟨0, 0, -2⟩, 0⟩ : Ray).direction.unit_vector) := by
  refine (metal_scatter_spec ⟨0.7, 0.6, 0.5⟩ 0 ⟨⟨0, 0, 0⟩, 0⟩
    ⟨⟨0, 0, 0⟩, ⟨0, 0, -2⟩, 0⟩ metalHit).2.2 rfl ?_ ?_
  · show Vec3.unit_vector ⟨0, 0, -2⟩ = -metalHit.normal
    have h4 : Real.sqrt ((0 : ℝ) * 0 + 0 * 0 + -2 * -2) = 2 := by
      rw [show (0 : ℝ) * 0 + 0 * 0 + (-2 : ℝ) * -2 = 2 ^ 2 by norm_num]
      exact Real.sqrt_sq (by norm_num)
    ext <;>
      simp [Vec3.unit_vector, Vec3.length, Vec3.length_squared, h4, metalHit] <;>
      norm_num
  · show Vec3.length ⟨0, 0, 1⟩ = 1
    simp [Vec3.length, Vec3.length_squared]

/-- C9: Camera::get_ray offsets the origin by the lens sample projected in
the (u,v) basis, aims at the focal-plane point minus origin and offset,
and samples the shutter time uniformly in the camera's interval, which
degenerates to a fixed instant when the interval is a point. -/
theorem camera_get_ray_spec (c : Camera) (inDisk : Vec3) (u01 s t : ℝ) :
    (Camera.get_ray c inDisk u01 s t).origin =
        c.origin + (c.u * (inDisk * c.lens_radius).x + c.v * (inDisk * c.lens_radius).y)
    ∧ (Camera.get_ray c inDisk u01 s t).direction =
        c.lower_left_corner + c.horizontal * s + c.vertical * t - c.origin -
          (c.u * (inDisk * c.lens_radius).x + c.v * (inDisk * c.lens_radius).y)
    ∧ (Camera.get_ray c inDisk u01 s t).time = c.time.1 + u01 * (c.time.2 - c.time.1)
    ∧ (0 ≤ u01 → u01 ≤ 1 → c.time.1 ≤ c.time.2 →
        c.time.1 ≤ (Camera.get_ray c inDisk u01 s t).time ∧
          (Camera.get_ray c inDisk u01 s t).time ≤ c.time.2)
    ∧ (c.time.1 = c.time.2 → (Camera.get_ray c inDisk u01 s t).time = c.time.1) := by
  refine ⟨rfl, rfl, rfl, fun h0 h1 ht => ⟨?_, ?_⟩, fun he => ?_⟩
  · show c.time.1 ≤ c.time.1 + u01 * (c.time.2 - c.time.1)
    nlinarith
  · show c.time.1 + u01 * (c.time.2 - c.time.1) ≤ c.time.2
    nlinarith
  · show c.time.1 + u01 * (c.time.2 - c.time.1) = c.time.1
    rw [← he]
    ring

/-! Sphere intersection characterization, shared by C3 and the BVH
equivalence development. -/

theorem Vec3.length_squared_nonneg (v : Vec3) : 0 ≤ v.length_squared := by
  simp only [Vec3.length_squared]
  nlinarith [sq_nonneg v.x, sq_nonneg v.y, sq_nonneg v.z]

@[simp] theorem HitRecord.new_t (t : ℝ) (r : Ray) (o : Vec3) (m : Material) :
    (HitRecord.new t r o m).t = t := rfl

theorem FP.le_trans {a b c : FP} (hab : FP.le a b = true) (hbc : FP.le b c = true) :
    FP.le a c = true := by
  cases a <;> cases b <;> cases c <;> simp_all <;> linarith

theorem sphereHitCore_eq (center : Point3) (radius : ℝ) (mat : Material)
    (r : Ray) (t_min t_max : FP) (a half_b c disc root1 root2 : ℝ)
    (ha : a = r.direction.length_squared)
    (hhb : half_b = (r.origin - center).dot_product r.direction)
    (hc : c = (r.origin - center).length_squared - radius * radius)
    (hdisc : disc = half_b * half_b - a * c)
    (hr1 : root1 = (-half_b - Real.sqrt disc) / a)
    (hr2 : root2 = (-half_b + Real.sqrt disc) / a) :
    sphereHitCore center radius mat r t_min t_max =
      (if disc < 0 then none
       else if FP.le t_min (FP.fin root1) && FP.le (FP.fin root1) t_max then
         some (HitRecord.new root1 r ((r.at root1 - center) / radius) mat)
       else if FP.le t_min (FP.fin root2) && FP.le (FP.fin root2) t_max then
         some (HitRecord.new root2 r ((r.at root2 - center) / radius) mat)
       else none) := by
  subst hr2 hr1 hdisc hc hhb ha
  simp only [sphereHitCore]

theorem sphere_roots_ordered (half_b s a : ℝ) (ha : 0 ≤ a) (hs : 0 ≤ s) :
    (-half_b - s) / a ≤ (-half_b + s) / a := by
  rcases eq_or_lt_of_le ha with h | h
  · rw [← h, div_zero, div_zero]
  · rw [div_le_div_iff_of_pos_right h]
    linarith

/-- C3: the sphere intersection (shared by Sphere::hit and
MovingSphere::hit, the latter with the interpolated center) misses exactly
when the discriminant is negative or neither root lies in the query
interval; otherwise it accepts the first of the two roots in ascending
order that lies in the interval and builds the record from that t with
outward normal (hit point - center) / radius, of unit length. -/
theorem sphere_hit_spec (center : Point3) (radius : ℝ) (mat : Material)
    (r : Ray) (t_min t_max : FP) (a half_b c disc root1 root2 : ℝ)
    (ha : a = r.direction.length_squared)
    (hhb : half_b = (r.origin - center).dot_product r.direction)
    (hc : c = (r.origin - center).length_squared - radius * radius)
    (hdisc : disc = half_b * half_b - a * c)
    (hr1 : root1 = (-half_b - Real.sqrt disc) / a)
    (hr2 : root2 = (-half_b + Real.sqrt disc) / a) :
    (sphereHitCore center radius mat r t_min t_max = none ↔
        disc < 0 ∨
          (¬ (FP.le t_min (FP.fin root1) = true ∧ FP.le (FP.fin root1) t_max = true) ∧
           ¬ (FP.le t_min (FP.fin root2) = true ∧ FP.le (FP.fin root2) t_max = true)))
    ∧ (0 ≤ disc → FP.le t_min (FP.fin root1) = true → FP.le (FP.fin root1) t_max = true →
        sphereHitCore center radius mat r t_min t_max =
          some (HitRecord.new root1 r ((r.at root1 - center) / radius) mat))
    ∧ (0 ≤ disc →
        ¬ (FP.le t_min (FP.fin root1) = true ∧ FP.le (FP.fin root1) t_max = true) →
        FP.le t_min (FP.fin root2) = true → FP.le (FP.fin root2) t_max = true →
        sphereHitCore center radius mat r t_min t_max =
          some (HitRecord.new root2 r ((r.at root2 - center) / radius) mat))
    ∧ root1 ≤ root2
    ∧ (radius ≠ 0 → a ≠ 0 → 0 ≤ disc → ∀ u, u = root1 ∨ u = root2 →
        ((r.at u - center) / radius).length = 1)
    ∧ (∀ s : Sphere,
        s.hit r t_min t_max = sphereHitCore s.center s.radius s.material r t_min t_max)
    ∧ (∀ ms : MovingSphere,
        ms.hit r t_min t_max =
          sphereHitCore (ms.centerAt r.time) ms.radius ms.material r t_min t_max) := by
  have hcore := sphereHitCore_eq center radius mat r t_min t_max a half_b c disc
    root1 root2 ha hhb hc hdisc hr1 hr2
  have hroots : root1 ≤ root2 := by
    rw [hr1, hr2]
    exact sphere_roots_ordered half_b (Real.sqrt disc) a
      (ha ▸ Vec3.length_squared_nonneg r.direction) (Real.sqrt_nonneg disc)
  refine ⟨?_, ?_, ?_, hroots, ?_, fun s => rfl, fun ms => rfl⟩
  · rw [hcore]
    by_cases h1 : disc < 0
    · simp [h1]
    · rw [if_neg h1]
      by_cases h2 : (FP.le t_min (FP.fin root1) && FP.le (FP.fin root1) t_max) = true
      · rw [if_pos h2]
        simp only [Bool.and_eq_true] at h2
        simp [h1, h2]
      · rw [if_neg h2]
        simp only [Bool.and_eq_true] at h2
        by_cases h3 : (FP.le t_min (FP.fin root2) && FP.le (FP.fin root2) t_max) = true
        · rw [if_pos h3]
          simp only [Bool.and_eq_true] at h3
          simp [h1, h3]
        · rw [if_neg h3]
          simp only [Bool.and_eq_true] at h3
          simp [h1, h2, h3]
  · intro hd h1 h2
    rw [hcore, if_neg (not_lt.mpr hd), if_pos (by simp [h1, h2])]
  · intro hd h1 h2 h3
    rw [hcore, if_neg (not_lt.mpr hd),
      if_neg (by simpa [Bool.and_eq_true] using h1), if_pos (by simp [h2, h3])]
  · intro hrad ha0 hd u hu
    have hexp : (r.at u - center).length_squared =
        a * u ^ 2 + 2 * half_b * u + (c + radius * radius) := by
      subst ha hhb hc
      simp only [Ray.at, Vec3.length_squared, Vec3.dot_product, Vec3.add_x,
        Vec3.add_y, Vec3.add_z, Vec3.sub_x, Vec3.sub_y, Vec3.sub_z,
        Vec3.smul_x, Vec3.smul_y, Vec3.smul_z]
      ring
    have hs : Real.sqrt disc ^ 2 = disc := Real.sq_sqrt hd
    have hau : a * u = -half_b - Real.sqrt disc ∨ a * u = -half_b + Real.sqrt disc := by
      rcases hu with h | h
      · left; rw [h, hr1]; field_simp
      · right; rw [h, hr2]; field_simp
    have h0 : a * (a * u ^ 2 + 2 * half_b * u + c) = 0 := by
      have hc2 : a * (a * u ^ 2 + 2 * half_b * u + c) =
          (a * u) ^ 2 + 2 * half_b * (a * u) + a * c := by ring
      rcases hau with h | h <;> rw [hc2, h] <;> nlinarith [hs, hdisc]
    have hq : a * u ^ 2 + 2 * half_b * u + c = 0 :=
      (mul_eq_zero.mp h0).resolve_left ha0
    have hlen : (r.at u - center).length_squared = radius * radius := by
      rw [hexp]
      linarith
    have hdivlen : ((r.at u - center) / radius).length_squared = 1 := by
      simp only [Vec3.length_squared, Vec3.div_x, Vec3.div_y, Vec3.div_z]
      have : ((r.at u - center).x / radius) * ((r.at u - center).x / radius) +
          ((r.at u - center).y / radius) * ((r.at u - center).y / radius) +
          ((r.at u - center).z / radius) * ((r.at u - center).z / radius) =
          (r.at u - center).length_squared / (radius * radius) := by
        simp only [Vec3.length_squared]
        field_simp
      rw [this, hlen, div_self (mul_ne_zero hrad hrad)]
    rw [Vec3.length, hdivlen, Real.sqrt_one]

/-- The single Lambertian sphere of the end-to-end scenario. -/
def sphere1 : Sphere := ⟨⟨0, 0, -1⟩, 0.5, .lambertian ⟨0.5, 0.5, 0.5⟩⟩

/-- The one-sphere world of the end-to-end scenario. -/
def scene1 : World := ⟨[.sphere sphere1]⟩

/-- The ray from the origin toward the scenario sphere's center. -/
def centerRay : Ray := ⟨⟨0, 0, 0⟩, ⟨0, 0, -1⟩, 0⟩

/-- A ray from the origin that misses the scenario sphere. -/
def missRay : Ray := ⟨⟨0, 0, 0⟩, ⟨0, 1, 0⟩, 0⟩

/-- Witness for C3: the center ray hits the scenario sphere at its near
root t = 0.5 and the outward normal there has unit length. -/
theorem sphere_hit_spec_witness :
    sphereHitCore ⟨0, 0, -1⟩ 0.5 (.lambertian ⟨0.5, 0.5, 0.5⟩) centerRay
        (FP.fin 0.001) FP.inf =
      some (HitRecord.new 0.5 centerRay
        ((centerRay.at 0.5 - (⟨0, 0, -1⟩ : Point3)) / (0.5 : ℝ))
        (.lambertian ⟨0.5, 0.5, 0.5⟩))
    ∧ ((centerRay.at 0.5 - (⟨0, 0, -1⟩ : Point3)) / (0.5 : ℝ)).length = 1 := by
  have hsq : Real.sqrt (0.25 : ℝ) = 0.5 := by
    rw [show (0.25 : ℝ) = (0.5 : ℝ) ^ 2 by norm_num]
    exact Real.sqrt_sq (by norm_num)
  have h := sphere_hit_spec ⟨0, 0, -1⟩ 0.5 (.lambertian ⟨0.5, 0.5, 0.5⟩) centerRay
    (FP.fin 0.001) FP.inf 1 (-1) 0.75 0.25 0.5 1.5
    (by norm_num [centerRay, Vec3.length_squared])
    (by norm_num [centerRay, Vec3.dot_product])
    (by norm_num [centerRay, Vec3.length_squared])
    (by norm_num)
    (by rw [hsq]; norm_num)
    (by rw [hsq]; norm_num)
  refine ⟨h.2.1 (by norm_num) (by simp; norm_num) (by simp), ?_⟩
  exact h.2.2.2.2.1 (by norm_num) (by norm_num) (by norm_num) 0.5 (Or.inl rfl)

/-! AABB slab-test lemmas for C7. -/

@[simp] theorem FP.lt_any_ninf (a : FP) : FP.lt a .ninf = false := by
  cases a <;> rfl

@[simp] theorem FP.lt_any_nan (a : FP) : FP.lt a .nan = false := by
  cases a <;> rfl

theorem FP.mulF_pos_inf (y : ℝ) (hy : 0 < y) : FP.mulF y .inf = .inf := by
  simp [FP.mulF, hy]

theorem FP.mulF_neg_inf (y : ℝ) (hy : y < 0) : FP.mulF y .inf = .ninf := by
  rw [FP.mulF, if_neg (by linarith), if_pos hy]

theorem FP.mulF_zero_inf : FP.mulF 0 .inf = .nan := by
  simp [FP.mulF]

theorem slabAxis_zero_inside (lo hi oA : ℝ) (u v : FP) (hlo : lo ≤ oA)
    (hhi : oA ≤ hi) : slabAxis lo hi oA 0 u v = (u, v) := by
  have hrec : FP.recip (0 : ℝ) = FP.inf := by simp [FP.recip]
  have ht0 : FP.mulF (lo - oA) FP.inf = FP.ninf ∨ FP.mulF (lo - oA) FP.inf = FP.nan := by
    rcases eq_or_lt_of_le hlo with he | hl
    · right; rw [he, sub_self]; exact FP.mulF_zero_inf
    · left; exact FP.mulF_neg_inf _ (by linarith)
  have ht1 : FP.mulF (hi - oA) FP.inf = FP.inf ∨ FP.mulF (hi - oA) FP.inf = FP.nan := by
    rcases eq_or_lt_of_le hhi with he | hl
    · right; rw [← he, sub_self]; exact FP.mulF_zero_inf
    · left; exact FP.mulF_pos_inf _ (by linarith)
  simp only [slabAxis, hrec]
  rcases ht0 with h | h <;> rcases ht1 with h1 | h1 <;> simp [h, h1]

theorem slabAxis_zero_outside (lo hi oA : ℝ) (u v : FP) (hlohi : lo ≤ hi)
    (hu : u ≠ FP.nan) (hv : v ≠ FP.nan) (h : oA < lo ∨ hi < oA) :
    FP.le (slabAxis lo hi oA 0 u v).2 (slabAxis lo hi oA 0 u v).1 = true := by
  have hrec : FP.recip (0 : ℝ) = FP.inf := by simp [FP.recip]
  rcases h with h | h
  · have ht0 : FP.mulF (lo - oA) FP.inf = FP.inf := FP.mulF_pos_inf _ (by linarith)
    have ht1 : FP.mulF (hi - oA) FP.inf = FP.inf := FP.mulF_pos_inf _ (by linarith)
    simp only [slabAxis, hrec, ht0, ht1]
    cases u <;> cases v <;> simp_all
  · have ht0 : FP.mulF (lo - oA) FP.inf = FP.ninf := FP.mulF_neg_inf _ (by linarith)
    have ht1 : FP.mulF (hi - oA) FP.inf = FP.ninf := FP.mulF_neg_inf _ (by linarith)
    simp only [slabAxis, hrec, ht0, ht1]
    cases u <;> cases v <;> simp_all

theorem slabAxis_swap_ordered (lo hi oA dA : ℝ) (hlohi : lo ≤ hi) (hdA : dA ≠ 0) :
    FP.le (if FP.lt (FP.recip dA) (FP.fin 0) then FP.mulF (hi - oA) (FP.recip dA)
           else FP.mulF (lo - oA) (FP.recip dA))
          (if FP.lt (FP.recip dA) (FP.fin 0) then FP.mulF (lo - oA) (FP.recip dA)
           else FP.mulF (hi - oA) (FP.recip dA)) = true := by
  have hinv : FP.recip dA = FP.fin dA⁻¹ := by simp [FP.recip, hdA]
  rw [hinv]
  rcases lt_or_gt_of_ne hdA with hneg | hpos
  · have hc : FP.lt (FP.fin dA⁻¹) (FP.fin 0) = true := by
      simp only [FP.lt_fin_fin, decide_eq_true_eq]
      exact inv_lt_zero.mpr hneg
    rw [if_pos hc, if_pos hc]
    simp only [FP.mulF, FP.le_fin_fin, decide_eq_true_eq]
    nlinarith [inv_lt_zero.mpr hneg]
  · have hc : FP.lt (FP.fin dA⁻¹) (FP.fin 0) = false := by
      simp only [FP.lt_fin_fin, decide_eq_false_iff_not]
      exact not_lt.mpr (le_of_lt (inv_pos.mpr hpos))
    rw [if_neg (by simp [hc]), if_neg (by simp [hc])]
    simp only [FP.mulF, FP.le_fin_fin, decide_eq_true_eq]
    nlinarith [inv_pos.mpr hpos]

/-- C7: AABB::hit narrows the interval axis by axis and succeeds exactly
when all three axes leave the interval non-empty; the swapped slab pair is
ordered for a finite nonzero direction component; a zero direction
component divides to infinity and still decides slab membership correctly:
the axis leaves the interval untouched when the origin lies inside the
slab and forces a miss when it lies strictly outside. -/
theorem aabb_hit_spec (b : AABB) (r : Ray) (t_min t_max : FP) (s1 s2 s3 : FP × FP)
    (h1 : s1 = slabAxis b.min.x b.max.x r.origin.x r.direction.x t_min t_max)
    (h2 : s2 = slabAxis b.min.y b.max.y r.origin.y r.direction.y s1.1 s1.2)
    (h3 : s3 = slabAxis b.min.z b.max.z r.origin.z r.direction.z s2.1 s2.2) :
    (b.hit r t_min t_max = true ↔
      (FP.le s1.2 s1.1 = false ∧ FP.le s2.2 s2.1 = false ∧ FP.le s3.2 s3.1 = false))
    ∧ FP.recip 0 = FP.inf
    ∧ (∀ lo hi oA : ℝ, ∀ u v : FP, lo ≤ oA → oA ≤ hi →
        slabAxis lo hi oA 0 u v = (u, v))
    ∧ (∀ lo hi oA : ℝ, ∀ u v : FP, lo ≤ hi → u ≠ FP.nan → v ≠ FP.nan →
        (oA < lo ∨ hi < oA) →
        FP.le (slabAxis lo hi oA 0 u v).2 (slabAxis lo hi oA 0 u v).1 = true)
    ∧ (∀ lo hi oA dA : ℝ, lo ≤ hi → dA ≠ 0 →
        FP.le (if FP.lt (FP.recip dA) (FP.fin 0) then FP.mulF (hi - oA) (FP.recip dA)
               else FP.mulF (lo - oA) (FP.recip dA))
              (if FP.lt (FP.recip dA) (FP.fin 0) then FP.mulF (lo - oA) (FP.recip dA)
               else FP.mulF (hi - oA) (FP.recip dA)) = true) := by
  refine ⟨?_, by simp [FP.recip], slabAxis_zero_inside, slabAxis_zero_outside,
    fun lo hi oA dA => slabAxis_swap_ordered lo hi oA dA⟩
  have hbody : b.hit r t_min t_max =
      (if FP.le s1.2 s1.1 then false
       else if FP.le s2.2 s2.1 then false
       else if FP.le s3.2 s3.1 then false else true) := by
    simp only [AABB.hit]
    rw [← h1, ← h2, ← h3]
  rw [hbody]
  cases e1 : FP.le s1.2 s1.1
  · cases e2 : FP.le s2.2 s2.1
    · cases e3 : FP.le s3.2 s3.1 <;> simp [e1, e2, e3]
    · simp [e1, e2]
  · simp [e1]

/-- A concrete box for the C7 witness. -/
def box0 : AABB := ⟨⟨0, 0, 0⟩, ⟨1, 1, 1⟩⟩

/-- Witness for C7: the zero-direction x axis with origin inside the slab
leaves the interval untouched. -/
theorem aabb_hit_spec_witness :
    slabAxis 0 1 0.5 0 (FP.fin 0) FP.inf = (FP.fin 0, FP.inf) :=
  (aabb_hit_spec box0 centerRay (FP.fin 0) FP.inf _ _ _ rfl rfl rfl).2.2.1
    0 1 0.5 (FP.fin 0) FP.inf (by norm_num) (by norm_num)

/-- A concrete camera for the C9 witness. -/
def cam0 : Camera :=
  ⟨⟨0, 0, 0⟩, ⟨0, 0, 0⟩, ⟨0, 0, 0⟩, ⟨0, 0, 0⟩, ⟨0, 0, 0⟩, ⟨0, 0, 0⟩, ⟨0, 0, 0⟩, 1, (0, 2)⟩

/-- Witness for C9: a mid-interval shutter draw lands inside the camera's
time interval. -/
theorem camera_get_ray_spec_witness :
    cam0.time.1 ≤ (Camera.get_ray cam0 ⟨0, 0, 0⟩ 0.5 0 0).time ∧
      (Camera.get_ray cam0 ⟨0, 0, 0⟩ 0.5 0 0).time ≤ cam0.time.2 :=
  (camera_get_ray_spec cam0 ⟨0, 0, 0⟩ 0.5 0 0).2.2.2.1 (by norm_num) (by norm_num)
    (by norm_num [cam0])

/-! World bounds, C10. -/

/-- Membership of a point in a box, used to state that the world's folded
box need not enclose every object. -/
def AABB.contains (b : AABB) (p : Point3) : Prop :=
  b.min.x ≤ p.x ∧ b.min.y ≤ p.y ∧ b.min.z ≤ p.z ∧
    p.x ≤ b.max.x ∧ p.y ≤ b.max.y ∧ p.z ≤ b.max.z

/-- A sphere far from the origin, hidden inside a BVH node for the C10
example. -/
def farSphere : Sphere := ⟨⟨100, 0, 0⟩, 1, .lambertian ⟨0.5, 0.5, 0.5⟩⟩

/-- A world whose first object is a BVH node (reporting no box) around the
far sphere and whose second object is a unit sphere at the origin. -/
def bvhWorld : World :=
  ⟨[.bvh (.sphere farSphere) (.sphere farSphere) box0,
    .sphere ⟨⟨0, 0, 0⟩, 1, .lambertian ⟨0.5, 0.5, 0.5⟩⟩]⟩

/-- C10: World::bounds folds with the AABB union exactly the objects whose
bounds are Some, returning None when none reports a box; BVH nodes always
report None and are silently omitted, so the returned box need not enclose
every object of the world. -/
theorem world_bounds_spec :
    (∀ w : World, ∀ time : ℝ × ℝ,
        World.bounds w time =
          match w.objects.filterMap (fun obj => obj.bounds time) with
          | [] => none
          | b :: bs => some (bs.foldl (· + ·) b))
    ∧ (∀ l rr : Hittable, ∀ bb : AABB, ∀ time : ℝ × ℝ,
        (Hittable.bvh l rr bb).bounds time = none)
    ∧ (∀ w : World, ∀ time : ℝ × ℝ, (∀ o ∈ w.objects, o.bounds time = none) →
        World.bounds w time = none)
    ∧ (∀ objs1 objs2 : List Hittable, ∀ o : Hittable, ∀ time : ℝ × ℝ,
        o.bounds time = none →
        World.bounds ⟨objs1 ++ o :: objs2⟩ time = World.bounds ⟨objs1 ++ objs2⟩ time)
    ∧ (bvhWorld.bounds (0, 1) = some ⟨⟨-1, -1, -1⟩, ⟨1, 1, 1⟩⟩
        ∧ ¬ AABB.contains ⟨⟨-1, -1, -1⟩, ⟨1, 1, 1⟩⟩ ⟨100, 0, 0⟩
        ∧ (Hittable.sphere farSphere).bounds (0, 1) = some ⟨⟨99, -1, -1⟩, ⟨101, 1, 1⟩⟩
        ∧ AABB.contains ⟨⟨99, -1, -1⟩, ⟨101, 1, 1⟩⟩ ⟨100, 0, 0⟩) := by
  refine ⟨fun w time => rfl, fun l rr bb time => rfl, ?_, ?_, ?_, ?_, ?_, ?_⟩
  · intro w time h
    simp [World.bounds, List.filterMap_eq_nil.mpr h]
  · intro objs1 objs2 o time ho
    simp [World.bounds, List.filterMap_append, List.filterMap_cons, ho]
  · norm_num [bvhWorld, World.bounds, Hittable.bounds, Sphere.bounds, farSphere,
      List.filterMap, box0]
  · norm_num [AABB.contains]
  · norm_num [Hittable.bounds, Sphere.bounds, farSphere]
  · norm_num [AABB.contains]

/-- Witness for C10: a world of two BVH nodes reports no box at all. -/
theorem world_bounds_spec_witness :
    World.bounds ⟨[.bvh (.sphere farSphere) (.sphere farSphere) box0,
      .bvh (.sphere farSphere) (.sphere farSphere) box0]⟩ (0, 1) = none :=
  world_bounds_spec.2.2.1 _ (0, 1) (by
    intro o ho
    simp only [List.mem_cons, List.not_mem_nil, or_false] at ho
    rcases ho with h | h <;> rw [h] <;> rfl)

/-! Integrator lemmas and C1. -/

@[simp] theorem HitRecord.new_material (t : ℝ) (r : Ray) (o : Vec3) (m : Material) :
    (HitRecord.new t r o m).material = m := rfl

theorem ray_color_depth_le (tape : ℕ → Draws) (r : Ray) (w : World) (depth : ℤ)
    (h : depth ≤ 0) : ray_color tape r w depth = BLACK := by
  rw [ray_color]
  exact dif_pos h

theorem ray_color_depth_pos (tape : ℕ → Draws) (r : Ray) (w : World) (depth : ℤ)
    (h : 0 < depth) :
    ray_color tape r w depth =
      match World.hit w r (FP.fin 0.001) FP.inf with
      | some hit =>
          match hit.material.scatter (tape 0) r hit with
          | some sr => sr.attenuation *
              ray_color (fun n => tape (n + 1)) sr.scattered w (depth - 1)
          | none => BLACK
      | none =>
          WHITE * (1 - 0.5 * (r.direction.unit_vector.y + 1)) +
            (⟨0.5, 0.7, 1⟩ : Color) * (0.5 * (r.direction.unit_vector.y + 1)) := by
  rw [ray_color, dif_neg (not_le.mpr h)]

theorem sphere1_hit_center :
    Sphere.hit sphere1 centerRay (FP.fin 0.001) FP.inf =
      some (HitRecord.new 0.5 centerRay
        ((centerRay.at 0.5 - sphere1.center) / sphere1.radius) sphere1.material) := by
  have hsq : Real.sqrt (0.25 : ℝ) = 0.5 := by
    rw [show (0.25 : ℝ) = (0.5 : ℝ) ^ 2 by norm_num]
    exact Real.sqrt_sq (by norm_num)
  rw [Sphere.hit, sphereHitCore_eq sphere1.center sphere1.radius sphere1.material
    centerRay (FP.fin 0.001) FP.inf 1 (-1) 0.75 0.25 0.5 1.5
    (by norm_num [centerRay, Vec3.length_squared])
    (by norm_num [centerRay, sphere1, Vec3.dot_product])
    (by norm_num [centerRay, sphere1, Vec3.length_squared])
    (by norm_num)
    (by rw [hsq]; norm_num)
    (by rw [hsq]; norm_num)]
  rw [if_neg (by norm_num), if_pos (by simp; norm_num)]

theorem sphere1_miss :
    Sphere.hit sphere1 missRay (FP.fin 0.001) FP.inf = none := by
  rw [Sphere.hit, sphereHitCore_eq sphere1.center sphere1.radius sphere1.material
    missRay (FP.fin 0.001) FP.inf 1 0 0.75 (-0.75)
    (-(Real.sqrt (-0.75))) (Real.sqrt (-0.75))
    (by norm_num [missRay, Vec3.length_squared])
    (by norm_num [missRay, sphere1, Vec3.dot_product])
    (by norm_num [missRay, sphere1, Vec3.length_squared])
    (by norm_num)
    (by norm_num)
    (by norm_num)]
  rw [if_pos (by norm_num)]

theorem scene1_hit_center :
    World.hit scene1 centerRay (FP.fin 0.001) FP.inf =
      some (HitRecord.new 0.5 centerRay
        ((centerRay.at 0.5 - sphere1.center) / sphere1.radius) sphere1.material) := by
  simp only [World.hit, scene1, hitLoop, Hittable.hit, sphere1_hit_center]

theorem scene1_miss :
    World.hit scene1 missRay (FP.fin 0.001) FP.inf = none := by
  simp only [World.hit, scene1, hitLoop, Hittable.hit, sphere1_miss]

/-- C1: ray_color returns black once the depth budget is exhausted;
otherwise it intersects the world over t from 0.001 to infinity, on a hit
multiplies the attenuation into the recursive color at depth - 1 (black
when the material absorbs), and on a miss returns the vertical background
gradient; in the one-Lambertian-sphere scenario at depth 1 the ray toward
the sphere's center yields black and the missing ray yields exactly the
gradient formula. -/
theorem ray_color_spec :
    (∀ tape : ℕ → Draws, ∀ r : Ray, ∀ w : World, ∀ depth : ℤ, depth ≤ 0 →
        ray_color tape r w depth = BLACK)
    ∧ (∀ tape : ℕ → Draws, ∀ r : Ray, ∀ w : World, ∀ depth : ℤ, 0 < depth →
        ray_color tape r w depth =
          match World.hit w r (FP.fin 0.001) FP.inf with
          | some hit =>
              match hit.material.scatter (tape 0) r hit with
              | some sr => sr.attenuation *
                  ray_color (fun n => tape (n + 1)) sr.scattered w (depth - 1)
              | none => BLACK
          | none =>
              WHITE * (1 - 0.5 * (r.direction.unit_vector.y + 1)) +
                (⟨0.5, 0.7, 1⟩ : Color) * (0.5 * (r.direction.unit_vector.y + 1)))
    ∧ (∀ tape : ℕ → Draws, ray_color tape centerRay scene1 1 = BLACK)
    ∧ (∀ tape : ℕ → Draws, ray_color tape missRay scene1 1 =
        WHITE * (1 - 0.5 * (missRay.direction.unit_vector.y + 1)) +
          (⟨0.5, 0.7, 1⟩ : Color) * (0.5 * (missRay.direction.unit_vector.y + 1))) := by
  refine ⟨ray_color_depth_le, ray_color_depth_pos, fun tape => ?_, fun tape => ?_⟩
  · rw [ray_color_depth_pos _ _ _ _ one_pos, scene1_hit_center]
    simp only [HitRecord.new_material, sphere1, Material.scatter]
    rw [ray_color_depth_le _ _ _ (1 - 1) (by norm_num)]
    ext <;> simp [BLACK, Vec3.zero]
  · rw [ray_color_depth_pos _ _ _ _ one_pos, scene1_miss]

/-- Witness for C1: depth 0 forces black, and the scenario's center ray at
depth 1 evaluates to black. -/
theorem ray_color_spec_witness :
    ray_color (fun _ => ⟨⟨0, 0, 0⟩, 0⟩) centerRay scene1 0 = BLACK ∧
      ray_color (fun _ => ⟨⟨0, 0, 0⟩, 0⟩) centerRay scene1 1 = BLACK :=
  ⟨ray_color_spec.1 _ _ _ 0 (by norm_num), ray_color_spec.2.2.1 _⟩

/-! BVH / linear-scan equivalence development, C2. -/

/-- The primitives reachable from a hit-testable value, in left-to-right
order: a BVH node flattens to its children's primitives. -/
def Hittable.flatten : Hittable → List Hittable
  | .sphere s => [.sphere s]
  | .msphere s => [.msphere s]
  | .bvh left right _ => left.flatten ++ right.flatten

/-- A hit-testable value that is a primitive, not a BVH node. -/
def IsPrim : Hittable → Prop
  | .bvh _ _ _ => False
  | _ => True

/-- Per-query well-formedness of the cached boxes, following the probes
the traversal actually makes for the given ray and interval: whenever this
node's box test rejects the query, no primitive below it hits the ray in
the queried interval; the left child is sound for the same query, and the
right child for the query it actually receives, whose upper bound is
shrunk to the left hit's t.  A global, query-independent version of this
contract is unsatisfiable for every node, because the box emptiness check
(t_max <= t_min) rejects any degenerate interval while a sphere's
closed-interval root acceptance can still hit there. -/
def SoundAt : Hittable → Ray → FP → FP → Prop
  | .bvh left right bounds, r, t_min, t_max =>
      (bounds.hit r t_min t_max = false →
        ∀ o ∈ (Hittable.bvh left right bounds).flatten, o.hit r t_min t_max = none)
      ∧ SoundAt left r t_min t_max
      ∧ SoundAt right r t_min
          (match left.hit r t_min t_max with
            | some h => FP.fin h.t
            | none => t_max)
  | _, _, _, _ => True

theorem optionOr_some {α : Type} (x : α) (y : Option α) :
    (some x).or y = some x := rfl

theorem optionOr_none {α : Type} (y : Option α) : (Option.or none y) = y := rfl

theorem FP.le_refl_of_ne_nan {a : FP} (h : a ≠ FP.nan) : FP.le a a = true := by
  cases a <;> simp_all

theorem FP.le_ne_nan_right {a b : FP} (h : FP.le a b = true) : b ≠ FP.nan := by
  cases a <;> cases b <;> simp_all

theorem FP.le_ne_nan_left {a b : FP} (h : FP.le a b = true) : a ≠ FP.nan := by
  cases a <;> simp_all

section ShapeLemmas

variable {tmin : FP} {ρ1 ρ2 : ℝ} {R1 R2 : HitRecord}
variable {F : FP → Option HitRecord}

/-- Shape of a primitive hit test as a function of the interval's upper
bound: either an unconditional miss (negative discriminant), or the two
roots tried in order, where the records carry the roots and the roots are
in ascending order. -/
def HitShape (tmin : FP) (ρ1 ρ2 : ℝ) (R1 R2 : HitRecord)
    (F : FP → Option HitRecord) : Prop :=
  R1.t = ρ1 ∧ R2.t = ρ2 ∧ ρ1 ≤ ρ2 ∧
    ((∀ t_max, F t_max = none) ∨
     (∀ t_max, F t_max =
        if FP.le tmin (FP.fin ρ1) && FP.le (FP.fin ρ1) t_max then some R1
        else if FP.le tmin (FP.fin ρ2) && FP.le (FP.fin ρ2) t_max then some R2
        else none))

theorem shape_cond_mono {t : ℝ} {t_max t_max2 : FP}
    (h : (FP.le tmin (FP.fin t) && FP.le (FP.fin t) t_max2) = true)
    (hle : FP.le t_max2 t_max = true) :
    (FP.le tmin (FP.fin t) && FP.le (FP.fin t) t_max) = true := by
  rw [Bool.and_eq_true] at h ⊢
  exact ⟨h.1, FP.le_trans h.2 hle⟩

theorem shape_some_bounds (hs : HitShape tmin ρ1 ρ2 R1 R2 F) {t_max : FP}
    {h : HitRecord} (hsome : F t_max = some h) :
    FP.le tmin (FP.fin h.t) = true ∧ FP.le (FP.fin h.t) t_max = true := by
  obtain ⟨ht1, ht2, hord, hnone | hF⟩ := hs
  · rw [hnone t_max] at hsome; cases hsome
  · rw [hF t_max] at hsome
    by_cases h1 : (FP.le tmin (FP.fin ρ1) && FP.le (FP.fin ρ1) t_max) = true
    · rw [if_pos h1] at hsome
      rw [Bool.and_eq_true] at h1
      injection hsome with hh
      subst hh
      rw [ht1]
      exact h1
    · rw [if_neg h1] at hsome
      by_cases h2 : (FP.le tmin (FP.fin ρ2) && FP.le (FP.fin ρ2) t_max) = true
      · rw [if_pos h2] at hsome
        rw [Bool.and_eq_true] at h2
        injection hsome with hh
        subst hh
        rw [ht2]
        exact h2
      · rw [if_neg h2] at hsome; cases hsome

theorem shape_nan (hs : HitShape tmin ρ1 ρ2 R1 R2 F) : F FP.nan = none := by
  obtain ⟨ht1, ht2, hord, hnone | hF⟩ := hs
  · exact hnone FP.nan
  · rw [hF FP.nan, if_neg (by simp), if_neg (by simp)]

theorem shape_none_shrink (hs : HitShape tmin ρ1 ρ2 R1 R2 F) {t_max t_max2 : FP}
    (hnone : F t_max = none) (hle : FP.le t_max2 t_max = true) :
    F t_max2 = none := by
  obtain ⟨ht1, ht2, hord, hn | hF⟩ := hs
  · exact hn t_max2
  · rw [hF t_max] at hnone
    rw [hF t_max2]
    by_cases h1 : (FP.le tmin (FP.fin ρ1) && FP.le (FP.fin ρ1) t_max) = true
    · rw [if_pos h1] at hnone; cases hnone
    · by_cases h2 : (FP.le tmin (FP.fin ρ2) && FP.le (FP.fin ρ2) t_max) = true
      · rw [if_neg h1, if_pos h2] at hnone; cases hnone
      · rw [if_neg (fun hc => h1 (shape_cond_mono hc hle)),
          if_neg (fun hc => h2 (shape_cond_mono hc hle))]

theorem shape_some_shrink (hs : HitShape tmin ρ1 ρ2 R1 R2 F) {t_max t_max2 : FP}
    {h : HitRecord} (hsome : F t_max = some h)
    (hin : FP.le (FP.fin h.t) t_max2 = true) (hle : FP.le t_max2 t_max = true) :
    F t_max2 = some h := by
  obtain ⟨ht1, ht2, hord, hnone | hF⟩ := hs
  · rw [hnone t_max] at hsome; cases hsome
  · rw [hF t_max] at hsome
    rw [hF t_max2]
    by_cases h1 : (FP.le tmin (FP.fin ρ1) && FP.le (FP.fin ρ1) t_max) = true
    · rw [if_pos h1] at hsome
      injection hsome with hh
      subst hh
      rw [Bool.and_eq_true] at h1
      rw [if_pos (by
        rw [Bool.and_eq_true]
        exact ⟨h1.1, ht1 ▸ hin⟩)]
    · rw [if_neg h1] at hsome
      by_cases h2 : (FP.le tmin (FP.fin ρ2) && FP.le (FP.fin ρ2) t_max) = true
      · rw [if_pos h2] at hsome
        injection hsome with hh
        subst hh
        rw [Bool.and_eq_true] at h2
        rw [if_neg (fun hc => h1 (shape_cond_mono hc hle)),
          if_pos (by
            rw [Bool.and_eq_true]
            exact ⟨h2.1, ht2 ▸ hin⟩)]
      · rw [if_neg h2] at hsome; cases hsome

theorem shape_widen (hs : HitShape tmin ρ1 ρ2 R1 R2 F) {t_max t_max2 : FP}
    {h2v : HitRecord} (hsome : F t_max2 = some h2v)
    (hle : FP.le t_max2 t_max = true) :
    ∃ h3, F t_max = some h3 ∧ h3.t ≤ h2v.t := by
  obtain ⟨ht1, ht2, hord, hnone | hF⟩ := hs
  · rw [hnone t_max2] at hsome; cases hsome
  · rw [hF t_max2] at hsome
    rw [hF t_max]
    by_cases h1 : (FP.le tmin (FP.fin ρ1) && FP.le (FP.fin ρ1) t_max2) = true
    · rw [if_pos h1] at hsome
      injection hsome with hh
      subst hh
      rw [if_pos (shape_cond_mono h1 hle)]
      exact ⟨R1, rfl, le_refl _⟩
    · rw [if_neg h1] at hsome
      by_cases h2 : (FP.le tmin (FP.fin ρ2) && FP.le (FP.fin ρ2) t_max2) = true
      · rw [if_pos h2] at hsome
        injection hsome with hh
        subst hh
        by_cases hw1 : (FP.le tmin (FP.fin ρ1) && FP.le (FP.fin ρ1) t_max) = true
        · rw [if_pos hw1]
          exact ⟨R1, rfl, by rw [ht1, ht2]; exact hord⟩
        · rw [if_neg hw1, if_pos (shape_cond_mono h2 hle)]
          exact ⟨R2, rfl, le_refl _⟩
      · rw [if_neg h2] at hsome; cases hsome

end ShapeLemmas

theorem core_shape (center : Point3) (radius : ℝ) (mat : Material) (r : Ray)
    (tmin : FP) (a half_b c disc root1 root2 : ℝ)
    (ha : a = r.direction.length_squared)
    (hhb : half_b = (r.origin - center).dot_product r.direction)
    (hc : c = (r.origin - center).length_squared - radius * radius)
    (hdisc : disc = half_b * half_b - a * c)
    (hr1 : root1 = (-half_b - Real.sqrt disc) / a)
    (hr2 : root2 = (-half_b + Real.sqrt disc) / a) :
    HitShape tmin root1 root2
      (HitRecord.new root1 r ((r.at root1 - center) / radius) mat)
      (HitRecord.new root2 r ((r.at root2 - center) / radius) mat)
      (fun t_max => sphereHitCore center radius mat r tmin t_max) := by
  refine ⟨rfl, rfl, ?_, ?_⟩
  · rw [hr1, hr2]
    exact sphere_roots_ordered half_b (Real.sqrt disc) a
      (ha ▸ Vec3.length_squared_nonneg r.direction) (Real.sqrt_nonneg disc)
  · by_cases hd : disc < 0
    · left
      intro t_max
      show sphereHitCore center radius mat r tmin t_max = _
      rw [sphereHitCore_eq center radius mat r tmin t_max a half_b c disc root1 root2
        ha hhb hc hdisc hr1 hr2, if_pos hd]
    · right
      intro t_max
      show sphereHitCore center radius mat r tmin t_max = _
      rw [sphereHitCore_eq center radius mat r tmin t_max a half_b c disc root1 root2
        ha hhb hc hdisc hr1 hr2, if_neg hd]

theorem prim_shape (o : Hittable) (ho : IsPrim o) (r : Ray) (tmin : FP) :
    ∃ ρ1 ρ2 R1 R2,
      HitShape tmin ρ1 ρ2 R1 R2 (fun t_max => o.hit r tmin t_max) := by
  cases o with
  | sphere s =>
      exact ⟨_, _, _, _,
        core_shape s.center s.radius s.material r tmin _ _ _ _ _ _
          rfl rfl rfl rfl rfl rfl⟩
  | msphere s =>
      exact ⟨_, _, _, _,
        core_shape (s.centerAt r.time) s.radius s.material r tmin _ _ _ _ _ _
          rfl rfl rfl rfl rfl rfl⟩
  | bvh left right bounds => exact ho.elim

theorem prim_some_bounds {o : Hittable} (ho : IsPrim o) {r : Ray} {tmin t_max : FP}
    {h : HitRecord} (hsome : o.hit r tmin t_max = some h) :
    FP.le tmin (FP.fin h.t) = true ∧ FP.le (FP.fin h.t) t_max = true := by
  obtain ⟨ρ1, ρ2, R1, R2, hs⟩ := prim_shape o ho r tmin
  exact shape_some_bounds hs hsome

theorem prim_nan {o : Hittable} (ho : IsPrim o) {r : Ray} {tmin : FP} :
    o.hit r tmin FP.nan = none := by
  obtain ⟨ρ1, ρ2, R1, R2, hs⟩ := prim_shape o ho r tmin
  exact shape_nan hs

theorem prim_none_shrink {o : Hittable} (ho : IsPrim o) {r : Ray}
    {tmin t_max t_max2 : FP} (hnone : o.hit r tmin t_max = none)
    (hle : FP.le t_max2 t_max = true) : o.hit r tmin t_max2 = none := by
  obtain ⟨ρ1, ρ2, R1, R2, hs⟩ := prim_shape o ho r tmin
  exact shape_none_shrink hs hnone hle

theorem prim_some_shrink {o : Hittable} (ho : IsPrim o) {r : Ray}
    {tmin t_max t_max2 : FP} {h : HitRecord} (hsome : o.hit r tmin t_max = some h)
    (hin : FP.le (FP.fin h.t) t_max2 = true) (hle : FP.le t_max2 t_max = true) :
    o.hit r tmin t_max2 = some h := by
  obtain ⟨ρ1, ρ2, R1, R2, hs⟩ := prim_shape o ho r tmin
  exact shape_some_shrink hs hsome hin hle

theorem prim_widen {o : Hittable} (ho : IsPrim o) {r : Ray}
    {tmin t_max t_max2 : FP} {h2v : HitRecord}
    (hsome : o.hit r tmin t_max2 = some h2v) (hle : FP.le t_max2 t_max = true) :
    ∃ h3, o.hit r tmin t_max = some h3 ∧ h3.t ≤ h2v.t := by
  obtain ⟨ρ1, ρ2, R1, R2, hs⟩ := prim_shape o ho r tmin
  exact shape_widen hs hsome hle

theorem hitLoop_acc_some (r : Ray) (tmin : FP) (objs : List Hittable)
    (t_max : FP) (h0 : HitRecord) :
    ∃ h, hitLoop r tmin objs t_max (some h0) = some h := by
  induction objs generalizing t_max h0 with
  | nil => exact ⟨h0, rfl⟩
  | cons o os ih =>
      simp only [hitLoop]
      cases ho : o.hit r tmin t_max with
      | some h1 => exact ih (FP.fin h1.t) h1
      | none => exact ih t_max h0

theorem hitLoop_eq_none (r : Ray) (tmin : FP) {objs : List Hittable}
    {t_max : FP} {acc : Option HitRecord}
    (h : hitLoop r tmin objs t_max acc = none) :
    acc = none ∧ ∀ o ∈ objs, o.hit r tmin t_max = none := by
  induction objs generalizing t_max acc with
  | nil => exact ⟨h, by simp⟩
  | cons o os ih =>
      simp only [hitLoop] at h
      cases ho : o.hit r tmin t_max with
      | some h1 =>
          simp only [ho] at h
          obtain ⟨hh, heq⟩ := hitLoop_acc_some r tmin os (FP.fin h1.t) h1
          rw [heq] at h
          cases h
      | none =>
          simp only [ho] at h
          obtain ⟨h1, h2⟩ := ih h
          refine ⟨h1, ?_⟩
          intro o2 ho2
          rcases List.mem_cons.mp ho2 with he | hm
          · rw [he]; exact ho
          · exact h2 o2 hm

theorem hitLoop_all_none (r : Ray) (tmin : FP) {objs : List Hittable}
    {t_max : FP} {acc : Option HitRecord}
    (h : ∀ o ∈ objs, o.hit r tmin t_max = none) :
    hitLoop r tmin objs t_max acc = acc := by
  induction objs with
  | nil => rfl
  | cons o os ih =>
      simp only [hitLoop, h o (List.mem_cons_self o os)]
      exact ih (fun o2 ho2 => h o2 (List.mem_cons_of_mem o ho2))

theorem hitLoop_or (r : Ray) (tmin : FP) (objs : List Hittable) (t_max : FP)
    (h0 : HitRecord) :
    hitLoop r tmin objs t_max (some h0) =
      (hitLoop r tmin objs t_max none).or (some h0) := by
  induction objs generalizing t_max h0 with
  | nil => rfl
  | cons o os ih =>
      simp only [hitLoop]
      cases ho : o.hit r tmin t_max with
      | some h1 =>
          simp only [ho]
          obtain ⟨hh, heq⟩ := hitLoop_acc_some r tmin os (FP.fin h1.t) h1
          rw [heq]
          rfl
      | none =>
          simp only [ho]
          exact ih t_max h0

theorem hitLoop_append (r : Ray) (tmin : FP) (A B : List Hittable) (t_max : FP)
    (acc : Option HitRecord)
    (hinv : ∀ h0, acc = some h0 → t_max = FP.fin h0.t) :
    hitLoop r tmin (A ++ B) t_max acc =
      hitLoop r tmin B
        (match hitLoop r tmin A t_max acc with
          | some h => FP.fin h.t
          | none => t_max)
        (hitLoop r tmin A t_max acc) := by
  induction A generalizing t_max acc with
  | nil =>
      simp only [List.nil_append, hitLoop]
      cases acc with
      | none => rfl
      | some h0 => rw [hinv h0 rfl]
  | cons o A ih =>
      simp only [List.cons_append, hitLoop]
      cases ho : o.hit r tmin t_max with
      | some h1 =>
          simp only [ho]
          obtain ⟨hh, heq⟩ := hitLoop_acc_some r tmin A (FP.fin h1.t) h1
          have hstep := ih (FP.fin h1.t) (some h1)
            (fun h2 he => by injection he with he2; rw [he2])
          rw [heq] at hstep ⊢
          exact hstep
      | none =>
          simp only [ho]
          exact ih t_max acc hinv

theorem hitLoop_range (r : Ray) (tmin : FP) {objs : List Hittable}
    {t_max T : FP} {acc : Option HitRecord}
    (hprim : ∀ o ∈ objs, IsPrim o) (hT : FP.le t_max T = true)
    (hacc : ∀ h0, acc = some h0 →
      FP.le tmin (FP.fin h0.t) = true ∧ FP.le (FP.fin h0.t) T = true)
    {h : HitRecord} (hres : hitLoop r tmin objs t_max acc = some h) :
    FP.le tmin (FP.fin h.t) = true ∧ FP.le (FP.fin h.t) T = true := by
  induction objs generalizing t_max acc with
  | nil => exact hacc h hres
  | cons o os ih =>
      simp only [hitLoop] at hres
      cases ho : o.hit r tmin t_max with
      | some h1 =>
          simp only [ho] at hres
          obtain ⟨hb1, hb2⟩ := prim_some_bounds (hprim o (List.mem_cons_self o os)) ho
          exact ih (fun o2 ho2 => hprim o2 (List.mem_cons_of_mem o ho2))
            (FP.le_trans hb2 hT)
            (fun h0 he => by
              injection he with he2
              subst he2
              exact ⟨hb1, FP.le_trans hb2 hT⟩)
            hres
      | none =>
          simp only [ho] at hres
          exact ih (fun o2 ho2 => hprim o2 (List.mem_cons_of_mem o ho2)) hT hacc hres

theorem hitLoop_some_tmax_ne_nan (r : Ray) (tmin : FP) {objs : List Hittable}
    {t_max : FP} {acc : Option HitRecord}
    (hprim : ∀ o ∈ objs, IsPrim o)
    (hinv : ∀ h0, acc = some h0 → t_max = FP.fin h0.t)
    {h : HitRecord} (hres : hitLoop r tmin objs t_max acc = some h) :
    t_max ≠ FP.nan := by
  intro hnan
  subst hnan
  rw [hitLoop_all_none r tmin (fun o ho => prim_nan (hprim o ho))] at hres
  exact FP.noConfusion (hinv h hres)

theorem hitLoop_min (r : Ray) (tmin : FP) {objs : List Hittable}
    {t_max : FP} {acc : Option HitRecord}
    (hprim : ∀ o ∈ objs, IsPrim o)
    (hinv : ∀ h0, acc = some h0 →
      t_max = FP.fin h0.t ∧ FP.le tmin (FP.fin h0.t) = true)
    {h : HitRecord} (hres : hitLoop r tmin objs t_max acc = some h) :
    ∀ o ∈ objs, ∀ T : FP, FP.le t_max T = true →
      ∀ h2, o.hit r tmin T = some h2 → h.t ≤ h2.t := by
  induction objs generalizing t_max acc with
  | nil => intro o ho; exact absurd ho (List.not_mem_nil o)
  | cons o os ih =>
      intro o2 ho2 T hT h2 hh2
      simp only [hitLoop] at hres
      have hprim2 : ∀ o3 ∈ os, IsPrim o3 :=
        fun o3 ho3 => hprim o3 (List.mem_cons_of_mem o ho3)
      cases ho : o.hit r tmin t_max with
      | some h1 =>
          simp only [ho] at hres
          obtain ⟨hb1, hb2⟩ := prim_some_bounds (hprim o (List.mem_cons_self o os)) ho
          have hrange := hitLoop_range r tmin hprim2
            (FP.le_refl_of_ne_nan (a := FP.fin h1.t) (by intro hc; cases hc))
            (fun h0 he => by
              injection he with he2
              subst he2
              exact ⟨hb1, FP.le_refl_of_ne_nan (by intro hc; cases hc)⟩)
            hres
          have hht1 : h.t ≤ h1.t := by
            have := hrange.2
            simp only [FP.le_fin_fin, decide_eq_true_eq] at this
            exact this
          rcases List.mem_cons.mp ho2 with he | hm
          · subst he
            by_cases hcase : FP.le (FP.fin h2.t) t_max = true
            · have := prim_some_shrink (hprim o2 (List.mem_cons_self o2 os)) hh2 hcase hT
              rw [this] at ho
              injection ho with he2
              rw [he2]
              exact hht1
            · cases t_max with
              | fin τ =>
                  have hb2r : h1.t ≤ τ := by
                    simpa only [FP.le_fin_fin, decide_eq_true_eq] using hb2
                  have hτ : τ < h2.t := by
                    by_contra hc
                    exact hcase (by
                      simp only [FP.le_fin_fin, decide_eq_true_eq]
                      linarith [not_lt.mp hc])
                  linarith
              | inf => exact absurd (FP.le_fin_inf h2.t) hcase
              | ninf => exact absurd hb2 (by simp)
              | nan => exact absurd hb2 (by simp)
          · exact ih hprim2
              (fun h0 he => by
                injection he with he2
                subst he2
                exact ⟨rfl, hb1⟩)
              hres o2 hm T (FP.le_trans hb2 hT) h2 hh2
      | none =>
          simp only [ho] at hres
          rcases List.mem_cons.mp ho2 with he | hm
          · subst he
            by_cases hcase : FP.le (FP.fin h2.t) t_max = true
            · have := prim_some_shrink (hprim o2 (List.mem_cons_self o2 os)) hh2 hcase hT
              rw [this] at ho
              cases ho
            · have hnn : t_max ≠ FP.nan :=
                hitLoop_some_tmax_ne_nan r tmin hprim2
                  (fun h0 he => (hinv h0 he).1) hres
              have hrange := hitLoop_range r tmin hprim2
                (FP.le_refl_of_ne_nan hnn)
                (fun h0 he => by
                  obtain ⟨he1, he2⟩ := hinv h0 he
                  exact ⟨he2, he1 ▸ FP.le_refl_of_ne_nan hnn⟩)
                hres
              cases t_max with
              | fin τ =>
                  have hhr : h.t ≤ τ := by
                    simpa only [FP.le_fin_fin, decide_eq_true_eq] using hrange.2
                  have hτ : τ < h2.t := by
                    by_contra hc
                    exact hcase (by
                      simp only [FP.le_fin_fin, decide_eq_true_eq]
                      linarith [not_lt.mp hc])
                  linarith
              | inf => exact absurd (FP.le_fin_inf h2.t) hcase
              | ninf => exact absurd hrange.2 (by simp)
              | nan => exact absurd rfl hnn
          · exact ih hprim2 hinv hres o2 hm T hT h2 hh2

theorem hitLoop_achv (r : Ray) (tmin : FP) {objs : List Hittable}
    {t_max : FP} {acc : Option HitRecord}
    (hprim : ∀ o ∈ objs, IsPrim o)
    {h : HitRecord} (hres : hitLoop r tmin objs t_max acc = some h) :
    acc = some h ∨
      ∃ o ∈ objs, ∃ h2, o.hit r tmin t_max = some h2 ∧ h2.t ≤ h.t := by
  induction objs generalizing t_max acc with
  | nil => exact Or.inl hres
  | cons o os ih =>
      simp only [hitLoop] at hres
      have hprim2 : ∀ o3 ∈ os, IsPrim o3 :=
        fun o3 ho3 => hprim o3 (List.mem_cons_of_mem o ho3)
      cases ho : o.hit r tmin t_max with
      | some h1 =>
          simp only [ho] at hres
          obtain ⟨hb1, hb2⟩ := prim_some_bounds (hprim o (List.mem_cons_self o os)) ho
          rcases ih hprim2 hres with he | ⟨o2, hm, h2, hh2, hle2⟩
          · injection he with he2
            refine Or.inr ⟨o, List.mem_cons_self o os, h1, ho, ?_⟩
            rw [he2]
          · obtain ⟨h3, hh3, hle3⟩ :=
              prim_widen (hprim2 o2 hm) hh2 hb2
            exact Or.inr ⟨o2, List.mem_cons_of_mem o hm, h3, hh3, le_trans hle3 hle2⟩
      | none =>
          simp only [ho] at hres
          rcases ih hprim2 hres with he | ⟨o2, hm, h2, hh2, hle2⟩
          · exact Or.inl he
          · exact Or.inr ⟨o2, List.mem_cons_of_mem o hm, h2, hh2, hle2⟩

@[simp] theorem World.hit_def (objs : List Hittable) (r : Ray) (t_min t_max : FP) :
    World.hit ⟨objs⟩ r t_min t_max = hitLoop r t_min objs t_max none := rfl

theorem optionOr_none_right {α : Type} (x : Option α) : x.or none = x := by
  cases x <;> rfl

theorem flatten_prim (n : Hittable) : ∀ o ∈ n.flatten, IsPrim o := by
  induction n with
  | sphere s =>
      intro o ho
      simp only [Hittable.flatten, List.mem_singleton] at ho
      rw [ho]; trivial
  | msphere s =>
      intro o ho
      simp only [Hittable.flatten, List.mem_singleton] at ho
      rw [ho]; trivial
  | bvh l rr bb ihl ihr =>
      intro o ho
      simp only [Hittable.flatten, List.mem_append] at ho
      rcases ho with h | h
      · exact ihl o h
      · exact ihr o h

theorem hit_eq_flatten_scan (n : Hittable) :
    ∀ (r : Ray) (t_min t_max : FP), SoundAt n r t_min t_max →
      n.hit r t_min t_max = World.hit ⟨n.flatten⟩ r t_min t_max := by
  induction n with
  | sphere s =>
      intro r t_min t_max _hs
      simp only [Hittable.hit, Hittable.flatten, World.hit_def, hitLoop]
      cases ho : Sphere.hit s r t_min t_max <;> simp [ho, hitLoop]
  | msphere s =>
      intro r t_min t_max _hs
      simp only [Hittable.hit, Hittable.flatten, World.hit_def, hitLoop]
      cases ho : MovingSphere.hit s r t_min t_max <;> simp [ho, hitLoop]
  | bvh l rr bb ihl ihr =>
      intro r t_min t_max hs
      have hs2 : (bb.hit r t_min t_max = false →
          ∀ o ∈ (Hittable.bvh l rr bb).flatten, o.hit r t_min t_max = none)
          ∧ SoundAt l r t_min t_max
          ∧ SoundAt rr r t_min
              (match Hittable.hit l r t_min t_max with
                | some h => FP.fin h.t
                | none => t_max) := hs
      obtain ⟨hsound, hsl, hsr⟩ := hs2
      have hlf : Hittable.hit l r t_min t_max =
          hitLoop r t_min l.flatten t_max none := by
        rw [ihl r t_min t_max hsl, World.hit_def]
      simp only [Hittable.hit, Hittable.flatten, World.hit_def]
      by_cases hbox : bb.hit r t_min t_max = false
      · rw [if_pos hbox]
        have hmiss : ∀ o ∈ l.flatten ++ rr.flatten, o.hit r t_min t_max = none :=
          fun o ho => hsound hbox o ho
        rw [hitLoop_all_none r t_min hmiss]
      · rw [if_neg hbox,
          hitLoop_append r t_min l.flatten rr.flatten t_max none
            (fun h0 he => Option.noConfusion he)]
        cases hcl : Hittable.hit l r t_min t_max with
        | some hL =>
            rw [hcl] at hsr
            have hsr2 : SoundAt rr r t_min (FP.fin hL.t) := hsr
            have hrf : Hittable.hit rr r t_min (FP.fin hL.t) =
                hitLoop r t_min rr.flatten (FP.fin hL.t) none := by
              rw [ihr r t_min (FP.fin hL.t) hsr2, World.hit_def]
            have hA : hitLoop r t_min l.flatten t_max none = some hL := by
              rw [← hlf]; exact hcl
            simp only [hcl, hA]
            rw [hitLoop_or r t_min rr.flatten (FP.fin hL.t) hL, hrf]
        | none =>
            rw [hcl] at hsr
            have hsr2 : SoundAt rr r t_min t_max := hsr
            have hrf : Hittable.hit rr r t_min t_max =
                hitLoop r t_min rr.flatten t_max none := by
              rw [ihr r t_min t_max hsr2, World.hit_def]
            have hA : hitLoop r t_min l.flatten t_max none = none := by
              rw [← hlf]; exact hcl
            simp only [hcl, hA]
            rw [hrf, optionOr_none_right]

theorem bvh_both_hit (l rr : Hittable) (bb : AABB) (r : Ray) (t_min t_max : FP)
    (hsAt : SoundAt (.bvh l rr bb) r t_min t_max)
    (hsrW : SoundAt rr r t_min t_max)
    {hl hr : HitRecord}
    (hhl : l.hit r t_min t_max = some hl) (hhr : rr.hit r t_min t_max = some hr) :
    ∃ h, (Hittable.bvh l rr bb).hit r t_min t_max = some h ∧
      h.t = min hl.t hr.t := by
  have hs2 : (bb.hit r t_min t_max = false →
      ∀ o ∈ (Hittable.bvh l rr bb).flatten, o.hit r t_min t_max = none)
      ∧ SoundAt l r t_min t_max
      ∧ SoundAt rr r t_min
          (match Hittable.hit l r t_min t_max with
            | some h => FP.fin h.t
            | none => t_max) := hsAt
  obtain ⟨hsound, hsl, hsrN⟩ := hs2
  rw [hhl] at hsrN
  have hsrN2 : SoundAt rr r t_min (FP.fin hl.t) := hsrN
  have hplf := flatten_prim l
  have hprf := flatten_prim rr
  have hlf : Hittable.hit l r t_min t_max =
      hitLoop r t_min l.flatten t_max none := by
    rw [hit_eq_flatten_scan l r t_min t_max hsl, World.hit_def]
  have hrfW : Hittable.hit rr r t_min t_max =
      hitLoop r t_min rr.flatten t_max none := by
    rw [hit_eq_flatten_scan rr r t_min t_max hsrW, World.hit_def]
  have hrfN : Hittable.hit rr r t_min (FP.fin hl.t) =
      hitLoop r t_min rr.flatten (FP.fin hl.t) none := by
    rw [hit_eq_flatten_scan rr r t_min (FP.fin hl.t) hsrN2, World.hit_def]
  have hA : hitLoop r t_min l.flatten t_max none = some hl := by
    rw [← hlf]; exact hhl
  have hB : hitLoop r t_min rr.flatten t_max none = some hr := by
    rw [← hrfW]; exact hhr
  have hbox : ¬ bb.hit r t_min t_max = false := by
    intro hb
    have hnone : hitLoop r t_min l.flatten t_max none = none :=
      hitLoop_all_none r t_min
        (fun o ho => hsound hb o (by
          show o ∈ l.flatten ++ rr.flatten
          exact List.mem_append_left _ ho))
    rw [hnone] at hA
    cases hA
  have hnn : t_max ≠ FP.nan :=
    hitLoop_some_tmax_ne_nan r t_min hplf (fun h0 he => Option.noConfusion he) hA
  have hlrange := hitLoop_range r t_min hplf (FP.le_refl_of_ne_nan hnn)
    (fun h0 he => Option.noConfusion he) hA
  have hnode : (Hittable.bvh l rr bb).hit r t_min t_max =
      (Hittable.hit rr r t_min (FP.fin hl.t)).or (some hl) := by
    simp only [Hittable.hit, hhl]
    rw [if_neg hbox]
  have hminB := hitLoop_min r t_min hprf (fun h0 he => Option.noConfusion he) hB
  rcases hitLoop_achv r t_min hprf hB with he | ⟨o, ho, h2, hh2, hle2⟩
  · exact Option.noConfusion he
  have hge : hr.t ≤ h2.t := hminB o ho t_max (FP.le_refl_of_ne_nan hnn) h2 hh2
  have h2eq : h2.t = hr.t := le_antisymm hle2 hge
  by_cases hcmp : hr.t ≤ hl.t
  · have hin : FP.le (FP.fin h2.t) (FP.fin hl.t) = true := by
      simp only [FP.le_fin_fin, decide_eq_true_eq]
      rw [h2eq]
      exact hcmp
    have hshr := prim_some_shrink (hprf o ho) hh2 hin hlrange.2
    cases hR : hitLoop r t_min rr.flatten (FP.fin hl.t) none with
    | none =>
        obtain ⟨-, hmiss2⟩ := hitLoop_eq_none r t_min hR
        rw [hmiss2 o ho] at hshr
        cases hshr
    | some h3 =>
        have hfinn : (FP.fin hl.t) ≠ FP.nan := by intro hc; cases hc
        have hminR := hitLoop_min r t_min hprf
          (fun h0 he => Option.noConfusion he) hR
        have h3le : h3.t ≤ h2.t :=
          hminR o ho (FP.fin hl.t) (FP.le_refl_of_ne_nan hfinn) h2 hshr
        rcases hitLoop_achv r t_min hprf hR with he | ⟨o4, ho4, h4, hh4, hle4⟩
        · exact Option.noConfusion he
        obtain ⟨h5, hh5, hle5⟩ := prim_widen (hprf o4 ho4) hh4 hlrange.2
        have hr5 : hr.t ≤ h5.t :=
          hminB o4 ho4 t_max (FP.le_refl_of_ne_nan hnn) h5 hh5
        have h3ge : hr.t ≤ h3.t := by linarith
        refine ⟨h3, ?_, ?_⟩
        · rw [hnode, hrfN, hR]
          rfl
        · have h3eq : h3.t = hr.t := le_antisymm (h2eq ▸ h3le) h3ge
          rw [h3eq, min_eq_right hcmp]
  · push_neg at hcmp
    have hRnone : hitLoop r t_min rr.flatten (FP.fin hl.t) none = none := by
      cases hR : hitLoop r t_min rr.flatten (FP.fin hl.t) none with
      | none => rfl
      | some h3 =>
          have hfinn : (FP.fin hl.t) ≠ FP.nan := by intro hc; cases hc
          have h3range := hitLoop_range r t_min hprf
            (FP.le_refl_of_ne_nan hfinn) (fun h0 he => Option.noConfusion he) hR
          have h3hl : h3.t ≤ hl.t := by
            simpa only [FP.le_fin_fin, decide_eq_true_eq] using h3range.2
          rcases hitLoop_achv r t_min hprf hR with he | ⟨o4, ho4, h4, hh4, hle4⟩
          · exact Option.noConfusion he
          obtain ⟨h5, hh5, hle5⟩ := prim_widen (hprf o4 ho4) hh4 hlrange.2
          have hr5 : hr.t ≤ h5.t :=
            hminB o4 ho4 t_max (FP.le_refl_of_ne_nan hnn) h5 hh5
          exact absurd (by linarith : hr.t ≤ hl.t) (not_le.mpr hcmp)
    refine ⟨hl, ?_, ?_⟩
    · rw [hnode, hrfN, hRnone]
      rfl
    · rw [min_eq_left (le_of_lt hcmp)]

/-- The sphere of the C2 counterexample: unit sphere at the origin. -/
def cexSphere : Sphere := ⟨⟨0, 0, 0⟩, 1, .lambertian ⟨0.5, 0.5, 0.5⟩⟩

/-- The cached box of the C2 counterexample node: exactly the bounding box
the source's Sphere::bounds computes for cexSphere. -/
def cexBox : AABB := ⟨⟨-1, -1, -1⟩, ⟨1, 1, 1⟩⟩

/-- A well-formed BVH node: its cached box is precisely the bounding box
of its (identical) sphere children. -/
def cexNode : Hittable := .bvh (.sphere cexSphere) (.sphere cexSphere) cexBox

/-- A ray through the counterexample sphere's center, whose near root is
t = 4. -/
def cexRay : Ray := ⟨⟨0, 0, 5⟩, ⟨0, 0, -1⟩, 0⟩

theorem cexSphere_hit :
    Sphere.hit cexSphere cexRay (FP.fin 4) (FP.fin 4) =
      some (HitRecord.new 4 cexRay
        ((cexRay.at 4 - cexSphere.center) / cexSphere.radius) cexSphere.material) := by
  rw [Sphere.hit, sphereHitCore_eq cexSphere.center cexSphere.radius
    cexSphere.material cexRay (FP.fin 4) (FP.fin 4) 1 (-5) 24 1 4 6
    (by norm_num [cexRay, Vec3.length_squared])
    (by norm_num [cexRay, cexSphere, Vec3.dot_product])
    (by norm_num [cexRay, cexSphere, Vec3.length_squared])
    (by norm_num)
    (by rw [Real.sqrt_one]; norm_num)
    (by rw [Real.sqrt_one]; norm_num)]
  rw [if_neg (by norm_num), if_pos (by simp)]

/-- C2 counterexample: the claim's universally quantified equivalence
fails on the code.  A BVH node whose cached box is exactly the bounding
box the source computes for its sphere children rejects the degenerate
interval with t_min = t_max = 4 (the slab emptiness check t_max <= t_min
fires), so BVH::hit returns none, while the linear scan over the same
primitives accepts the sphere root at t = 4 with the closed-interval
comparison and returns the hit. -/
theorem bvh_linear_scan_cex :
    Sphere.bounds cexSphere (0, 1) = some cexBox
    ∧ Hittable.hit cexNode cexRay (FP.fin 4) (FP.fin 4) = none
    ∧ World.hit ⟨cexNode.flatten⟩ cexRay (FP.fin 4) (FP.fin 4) =
        some (HitRecord.new 4 cexRay
          ((cexRay.at 4 - cexSphere.center) / cexSphere.radius) cexSphere.material)
    ∧ Hittable.hit cexNode cexRay (FP.fin 4) (FP.fin 4) ≠
        World.hit ⟨cexNode.flatten⟩ cexRay (FP.fin 4) (FP.fin 4) := by
  have hbox : AABB.hit cexBox cexRay (FP.fin 4) (FP.fin 4) = false := by
    norm_num [AABB.hit, slabAxis, FP.recip, FP.mulF, cexBox, cexRay]
  have hnone : Hittable.hit cexNode cexRay (FP.fin 4) (FP.fin 4) = none := by
    simp only [cexNode, Hittable.hit]
    rw [if_pos hbox]
  have hscan : World.hit ⟨cexNode.flatten⟩ cexRay (FP.fin 4) (FP.fin 4) =
      some (HitRecord.new 4 cexRay
        ((cexRay.at 4 - cexSphere.center) / cexSphere.radius) cexSphere.material) := by
    simp only [cexNode, Hittable.flatten, List.singleton_append, World.hit_def,
      hitLoop, Hittable.hit, cexSphere_hit, HitRecord.new_t]
  refine ⟨by norm_num [Sphere.bounds, cexSphere, cexBox], hnone, hscan, ?_⟩
  rw [hnone, hscan]
  simp

/-- C2 (amended): for every query on which the cached boxes are sound for
the probes the traversal makes, the hit returned by a BVH node equals the
hit of the brute-force linear scan over its flattened primitives, record
for record; and when both children hit the full interval and the right
child is additionally sound on it, the returned hit carries the smaller of
the two t parameters. -/
theorem bvh_hit_eq_linear_scan (n : Hittable) (r : Ray) (t_min t_max : FP)
    (hs : SoundAt n r t_min t_max) :
    (n.hit r t_min t_max = World.hit ⟨n.flatten⟩ r t_min t_max)
    ∧ (∀ l rr : Hittable, ∀ bb : AABB, ∀ hl hr : HitRecord,
        n = .bvh l rr bb → SoundAt rr r t_min t_max →
        l.hit r t_min t_max = some hl → rr.hit r t_min t_max = some hr →
        ∃ h, n.hit r t_min t_max = some h ∧ h.t = min hl.t hr.t) := by
  refine ⟨hit_eq_flatten_scan n r t_min t_max hs, ?_⟩
  intro l rr bb hl hr hn hsrW hhl hhr
  subst hn
  exact bvh_both_hit l rr bb r t_min t_max hs hsrW hhl hhr

/-- The sphere of the C2 witness scene. -/
def witSphere : Sphere := ⟨⟨2, 2, 2⟩, 1, .lambertian ⟨0.5, 0.5, 0.5⟩⟩

/-- The cached box of the C2 witness node: the bounding box Sphere::bounds
computes for witSphere. -/
def witBox : AABB := ⟨⟨1, 1, 1⟩, ⟨3, 3, 3⟩⟩

/-- A genuine BVH node for the C2 witness. -/
def witNode : Hittable := .bvh (.sphere witSphere) (.sphere witSphere) witBox

/-- A ray whose box test against witBox succeeds on the full interval. -/
def witRay : Ray := ⟨⟨0, 0, 0⟩, ⟨1, 1, 1⟩, 0⟩

/-- Witness for C2's amended theorem: an actual BVH node, sound for the
witness query because its box test accepts it, on which the dispatched hit
equals the linear scan. -/
theorem bvh_hit_eq_linear_scan_witness :
    SoundAt witNode witRay (FP.fin 0.001) FP.inf ∧
      Hittable.hit witNode witRay (FP.fin 0.001) FP.inf =
        World.hit ⟨witNode.flatten⟩ witRay (FP.fin 0.001) FP.inf := by
  have hbox : AABB.hit witBox witRay (FP.fin 0.001) FP.inf = true := by
    norm_num [AABB.hit, slabAxis, FP.recip, FP.mulF, witBox, witRay]
  have hsound : SoundAt witNode witRay (FP.fin 0.001) FP.inf := by
    refine ⟨fun hb => ?_, trivial, trivial⟩
    rw [hbox] at hb
    cases hb
  exact ⟨hsound,
    (bvh_hit_eq_linear_scan witNode witRay (FP.fin 0.001) FP.inf hsound).1⟩

end
